import Mathlib

/-!
Verification of the sorted-reduceat aggregation kernel of flox
(`flox/aggregate_flox.py`), shallowly embedded over lists.

Conventions of the embedding:
* arrays are 1-D `List`s along the reduction axis (the kernel asserts
  `axis == -1` and all claims are about that axis);
* group codes are `Int` (numpy intp);
* data values are `ℚ` (exact rationals stand in for floats: every operation
  the claims exercise — sum, min, max, count, linear interpolation at dyadic
  weights — is exact);
* a possibly-missing float is `Option ℚ`, with `none` playing NaN
  (`xrutils.isnull` is `Option.isNone`);
* `-inf` (`xrdtypes.get_neg_infinity` for floats) is `⊥` in `WithBot ℚ`,
  and the `INF`/`NINF` sentinels of `_nan_grouped_op` are `⊤`/`⊥` in
  `WithBot (WithTop ℚ)`;
* fallible numpy operations (boolean-mask length mismatch, fancy-index
  assignment out of bounds) are modelled with `Option`, `none` = raised error.
-/

set_option maxHeartbeats 1000000
set_option maxRecDepth 8000

namespace Flox

/-- Boolean-mask selection `arr[mask]`; the caller must ensure the mask has
the array's length (numpy raises otherwise). -/
def maskSelect : List α → List Bool → List α
  | a :: as, b :: bs => if b then a :: maskSelect as bs else maskSelect as bs
  | _, _ => []

/-- `np.nonzero` of a boolean vector: positions of the `true` entries. -/
def truePositions : List Bool → List Nat
  | [] => []
  | b :: bs =>
    if b then 0 :: (truePositions bs).map (· + 1) else (truePositions bs).map (· + 1)

/-- `aux[1:] != aux[:-1]`: one flag per adjacent pair. -/
def chainFlags : List Int → List Bool
  | c :: c2 :: rest => decide (c2 ≠ c) :: chainFlags (c2 :: rest)
  | _ => []

/-- `flag = np.concatenate(([True], aux[1:] != aux[:-1]))` (`_np_grouped_op`,
line 183).  For an empty `aux` this mask has length 1 and numpy's boolean
indexing `aux[flag]` raises; `np_grouped_op` models that with `none`. -/
def flagOf : List Int → List Bool
  | [] => []
  | c :: cs => true :: chainFlags (c :: cs)

/-- `uniques = aux[flag]` (line 184): the first code of every run. -/
def uniquesOf (codes : List Int) : List Int := maskSelect codes (flagOf codes)

/-- `(inv_idx,) = flag.nonzero()` (line 185): the run-start positions. -/
def invIdxOf (codes : List Int) : List Nat := truePositions (flagOf codes)

/-- The segments `[inv_idx[i], inv_idx[i+1])` of `data` (with a final
boundary at `stop`), i.e. the slices a `ufunc.reduceat(data, inv_idx)`
reduces over. -/
def segmentsOf (inv : List Nat) (stop : Nat) (data : List α) : List (List α) :=
  (inv.zip (inv.tail ++ [stop])).map fun se => (data.take se.2).drop se.1

/-- One `reduceat` segment reduction: fold the operator over the (always
nonempty) run; `dflt` is returned for an empty segment, which run
decomposition never produces. -/
def reduceSeg (op : α → α → α) (dflt : α) : List α → α
  | [] => dflt
  | x :: xs => xs.foldl op x

/-- Fancy-index assignment `out[targets] = vals` (line 210): sequential
writes, negative indices wrap, out-of-bounds raises (`none`), and numpy
requires the value list to match the index list. -/
def scatterWrite : List α → List Int → List α → Option (List α)
  | out, [], [] => some out
  | out, t :: ts, v :: vs =>
    let j : Int := if t < 0 then t + out.length else t
    if 0 ≤ j ∧ j < (out.length : Int) then scatterWrite (out.set j.toNat v) ts vs
    else none
  | _, _, _ => none

/-- `np.max` of a code list (0 on the empty list, which the callers guard). -/
def listMax : List Int → Int
  | [] => 0
  | x :: xs => xs.foldl max x

/-- `_np_grouped_op` (lines 165-212) for a 1-D data array and an operator
that maps each `reduceat` segment to one value.  The input is assumed sorted
(line 180); `size = None` is `size? = none` (then `np.max(uniques) + 1` is
used, line 188); the guarded branch at line 203 writes the segment results
straight into the preallocated output, the other branch scatters them at the
observed codes into a `fill`-initialized output. -/
def np_grouped_op (segOp : List α → α) (codes : List Int) (data : List α)
    (size? : Option Nat) (fill : α) : Option (List α) :=
  if codes.isEmpty then none
  else
    let uniques := uniquesOf codes
    let invIdx := invIdxOf codes
    let sizeI : Int :=
      match size? with
      | some s => (s : Int)
      | none => listMax uniques + 1
    let size := sizeI.toNat
    let results := (segmentsOf invIdx data.length data).map segOp
    if uniques.length = size ∧ uniques = (List.range size).map Int.ofNat then
      some results
    else
      scatterWrite (List.replicate size fill) uniques results

/-- `np.add.reduceat` segment body. -/
def segSum (seg : List ℚ) : ℚ := reduceSeg (· + ·) 0 seg

/-- `(group_idx[:-1] <= group_idx[1:]).all()` (line 15). -/
def issorted : List Int → Bool
  | c :: c2 :: rest => decide (c ≤ c2) && issorted (c2 :: rest)
  | _ => true

/-- Comparator of a stable argsort on (original index, value) pairs:
by value, ties broken by the original position. -/
def argsortRel (p q : Nat × Int) : Prop := p.2 < q.2 ∨ (p.2 = q.2 ∧ p.1 ≤ q.1)

instance : DecidableRel argsortRel := fun p q => by
  unfold argsortRel; infer_instance

/-- `group_idx.argsort(kind="stable")` (line 20). -/
def argsortStable (codes : List Int) : List Nat :=
  (List.insertionSort argsortRel codes.enum).map Prod.fst

/-- Fancy indexing `arr[..., perm]` with an in-range index list. -/
def applyPerm (perm : List Nat) (data : List α) : List α := perm.filterMap data.get?

/-- `_prepare_for_flox` (lines 9-23): stable-sort both arrays by the codes
unless the codes are already non-decreasing.  The third component is the
permutation used; `none` stands for the `slice(None)` identity. -/
def prepare_for_flox (codes : List Int) (data : List α) :
    List Int × List α × Option (List Nat) :=
  if issorted codes then (codes, data, none)
  else
    let perm := argsortStable codes
    (applyPerm perm codes, applyPerm perm data, some perm)

/-- A kernel composed with the sorting pass; that composition is the call
pattern of `core.chunk_reduce` ("assumes input is sorted, which I do in
core._prepare_for_flox", line 180). -/
def withPrepare (func : List Int → List α → Option Nat → α → Option (List α))
    (codes : List Int) (data : List α) (size? : Option Nat) (fill : α) :
    Option (List α) :=
  let p := prepare_for_flox codes data
  func p.1 p.2.1 size? fill

/-- `sum = partial(_np_grouped_op, op=np.add.reduceat)` (line 230). -/
def sum (codes : List Int) (data : List ℚ) (size? : Option Nat) (fill : ℚ) :
    Option (List ℚ) :=
  np_grouped_op segSum codes data size? fill

/-- `np.multiply.reduceat` segment body. -/
def segProd (seg : List ℚ) : ℚ := reduceSeg (· * ·) 1 seg

/-- `prod = partial(_np_grouped_op, op=np.multiply.reduceat)` (line 232). -/
def prod (codes : List Int) (data : List ℚ) (size? : Option Nat) (fill : ℚ) :
    Option (List ℚ) :=
  np_grouped_op segProd codes data size? fill

/-- `max = partial(_np_grouped_op, op=np.maximum.reduceat)` (line 234); the
`junk` value is returned for an empty reduceat segment, which the run
decomposition never produces. -/
def maxOp [LinearOrder α] (junk : α) (codes : List Int) (data : List α)
    (size? : Option Nat) (fill : α) : Option (List α) :=
  np_grouped_op (reduceSeg Max.max junk) codes data size? fill

/-- `min = partial(_np_grouped_op, op=np.minimum.reduceat)` (line 236). -/
def minOp [LinearOrder α] (junk : α) (codes : List Int) (data : List α)
    (size? : Option Nat) (fill : α) : Option (List α) :=
  np_grouped_op (reduceSeg Min.min junk) codes data size? fill

/-- Grouped sum with the sorting pass in front. -/
def sumReduce (codes : List Int) (data : List ℚ) (size? : Option Nat) (fill : ℚ) :
    Option (List ℚ) :=
  withPrepare sum codes data size? fill

/-- Extended values `±inf` for `_nan_grouped_op`'s sentinels
(`dtypes.INF = +inf`, `dtypes.NINF = -inf` on float dtypes,
via `dtypes._get_fill_value`, line 217). -/
abbrev XRat := WithBot (WithTop ℚ)

/-- `_nan_grouped_op` (lines 215-227): replace missing values by the
operator's identity `fillna`, run `func`, and — only when `fillna` is one of
`np.inf`/`-np.inf` (line 223), recorded here as `isInf`, which holds for
nanmin/nanmax but not for nansum/nanprod — replace results equal to the
sentinel by `fill_value`. -/
def nan_grouped_op [DecidableEq α]
    (func : List Int → List α → Option Nat → α → Option (List α))
    (fillna : α) (isInf : Bool) (codes : List Int) (data : List (Option α))
    (size? : Option Nat) (fill : α) : Option (List α) :=
  let filled := data.map fun o => o.getD fillna
  (func codes filled size? fill).map fun res =>
    if isInf then res.map fun x => if x = fillna then fill else x else res

/-- `nansum = partial(_nan_grouped_op, func=sum, fillna=0)` (line 231):
`fillna = 0` is not `±inf`, so no sentinel replacement happens. -/
def nansum (codes : List Int) (data : List (Option ℚ)) (size? : Option Nat)
    (fill : ℚ) : Option (List ℚ) :=
  nan_grouped_op sum 0 false codes data size? fill

/-- `nanprod = partial(_nan_grouped_op, func=prod, fillna=1)` (line 233). -/
def nanprod (codes : List Int) (data : List (Option ℚ)) (size? : Option Nat)
    (fill : ℚ) : Option (List ℚ) :=
  nan_grouped_op prod 1 false codes data size? fill

/-- `nanmax = partial(_nan_grouped_op, func=max, fillna=dtypes.NINF)`
(line 235); on floats `NINF` becomes `-inf = ⊥`, which is in
`(np.inf, -np.inf)`, so sentinel results become `fill_value`. -/
def nanmax (codes : List Int) (data : List (Option XRat)) (size? : Option Nat)
    (fill : XRat) : Option (List XRat) :=
  nan_grouped_op (maxOp ⊥) ⊥ true codes data size? fill

/-- `nanmin = partial(_nan_grouped_op, func=min, fillna=dtypes.INF)` (line 237). -/
def nanmin (codes : List Int) (data : List (Option XRat)) (size? : Option Nat)
    (fill : XRat) : Option (List XRat) :=
  nan_grouped_op (minOp ⊤) ⊤ true codes data size? fill

/-- `nanlen` (lines 268-269): grouped count of non-missing values,
`sum(group_idx, notnull(array).astype(int))`. -/
def nanlen (codes : List Int) (data : List (Option ℚ)) (size? : Option Nat)
    (fill : ℚ) : Option (List ℚ) :=
  sum codes (data.map fun o => if o.isSome then (1 : ℚ) else 0) size? fill

/-- `mean` (lines 272-278): grouped sum divided elementwise by the grouped
count (`fill_value = None` defaults to 0).  ℚ-division is total with
`x / 0 = 0` where numpy leaves a suppressed-warning `nan`/`inf` for groups
with zero count; the claims never read such positions. -/
def mean (codes : List Int) (data : List ℚ) (size? : Option Nat)
    (fill? : Option ℚ) : Option (List ℚ) :=
  let fill := fill?.getD 0
  match sum codes data size? fill, nanlen codes (data.map some) size? 0 with
  | some s, some c => some (List.zipWith (fun a b => a / b) s c)
  | _, _ => none

/-- Value domain inside `quantile_or_topk`: rationals with a bottom element;
`⊥` plays `-inf` (`dtypes.get_neg_infinity` on floats, line 89) and also
absorbs the degenerate arithmetic on all-missing groups where IEEE floats
would produce NaN — positions the claims only read through `fill_value`. -/
abbrev QB := WithBot ℚ

/-- `np.subtract` on the extended values (⊥ absorbs). -/
def bsub : QB → QB → QB
  | some a, some b => some (a - b)
  | _, _ => ⊥

/-- `np.add` on the extended values (⊥ absorbs). -/
def badd : QB → QB → QB
  | some a, some b => some (a + b)
  | _, _ => ⊥

/-- Scaling by the finite interpolation weight (⊥ absorbs). -/
def bscale (t : ℚ) : QB → QB
  | some a => some (t * a)
  | none => ⊥

/-- `_lerp` (lines 26-47): `a + (b-a)*t` everywhere, overwritten by the
upper-anchored `b - (b-a)*(1-t)` where `t >= 0.5` (line 46). -/
def lerp (a b : QB) (t : ℚ) : QB :=
  if 1 / 2 ≤ t then bsub b (bscale (1 - t) (bsub b a)) else badd a (bscale t (bsub b a))

/-- Count of non-missing entries (`np.add.reduceat(~array_nanmask, ...)`,
line 83, per segment). -/
def countSome (seg : List (Option ℚ)) : Nat := seg.countP (·.isSome)

/-- `np.take_along_axis` at one integer rank (lines 140-143): negative
indices wrap once; an out-of-range read returns `⊥` (numpy would raise, but
such ranks only arise at positions the caller overwrites with
`fill_value`). -/
def takeIdx (l : List QB) (i : Int) : QB :=
  let j : Int := if i < 0 then i + l.length else i
  if h : 0 ≤ j ∧ j < (l.length : Int) then l.get ⟨j.toNat, by omega⟩ else ⊥

/-- Comparator of the complex-number partition (lines 127-130): primarily
by group code (real part), secondarily by value (imaginary part). -/
def pairRel (p q : Int × QB) : Prop := p.1 < q.1 ∨ (p.1 = q.1 ∧ p.2 ≤ q.2)

instance : DecidableRel pairRel := fun p q => by
  unfold pairRel; infer_instance

/-- `np.diff(inv_idx)` after `inv_idx = np.concatenate((inv_idx, [N]))`
(lines 66, 85, 91): the full size of every segment. -/
def segLens (invIdx : List Nat) (n : Nat) : List Nat :=
  List.zipWith (fun s e => e - s) (invIdx ++ [n]) ((invIdx ++ [n]).tail)

/-- `nanmask = full_sizes != actual_sizes` (lines 83-86): which groups
contain at least one missing value. -/
def nanmaskOf (array : List (Option ℚ)) (invIdx : List Nat) : List Bool :=
  List.zipWith (fun f a => decide (f ≠ a)) (segLens invIdx array.length)
    ((segmentsOf invIdx array.length array).map countSome)

/-- Lines 89-92: missing entries are set to `-inf`, group maxima are taken
with `np.maximum.reduceat`, repeated with `np.repeat(maxes, np.diff(inv_idx))`
and written back over the missing entries, so every missing value becomes its
group's maximum (or `-inf` in an all-missing group). -/
def replacedArray (array : List (Option ℚ)) (invIdx : List Nat) : List QB :=
  let arrayB : List QB := array.map fun o =>
    match o with
    | none => ⊥
    | some x => (x : QB)
  let maxes := (segmentsOf invIdx array.length arrayB).map (reduceSeg Max.max ⊥)
  let replacement := ((maxes.zip (segLens invIdx array.length)).map
    fun ml => List.replicate ml.2 ml.1).flatten
  List.zipWith
    (fun o r =>
      match o with
      | none => r
      | some x => (x : QB))
    array replacement

/-- The partitioned values (lines 127-135): `cmplx.partition(kth)` is
modelled by a full sort of the (code, value) pairs — `np.partition` places
exactly the sorted value at every rank in `kth`, which covers every rank the
quantile path reads; for top-k the ranks between pinned ones carry the
bucket's multiset and the sort is the canonical refinement of the
unspecified intra-bucket order. -/
def sortedVals (group_idx : List Int) (arr1 : List QB) : List QB :=
  (List.insertionSort pairRel (group_idx.zip arr1)).map Prod.snd

/-- `quantile_or_topk` (lines 50-162) for 1-D data and a scalar `q` or an
integer `k`; the result is a list of rows, one per requested quantile/rank
(`is_scalar_param` only squeezes the leading axis, so a scalar `q` yields
one row); see `sortedVals` for the partition model. -/
def quantile_or_topk (array : List (Option ℚ)) (invIdx : List Nat)
    (q : Option ℚ) (k : Option Int) (skipna : Bool) (group_idx : List Int)
    (fill_value : QB) : List (List QB) :=
  let n := array.length
  let actual_sizes := (segmentsOf invIdx n array).map countSome
  let nanmask := nanmaskOf array invIdx
  let sortedA := sortedVals group_idx (replacedArray array invIdx)
  match q, k with
  | some qv, _ =>
    let virtual := List.zipWith (fun (a : Nat) (s : Nat) => qv * ((a : ℚ) - 1) + (s : ℚ))
      actual_sizes invIdx
    let lo := virtual.map Int.floor
    let hi := virtual.map Int.ceil
    let loval := lo.map (takeIdx sortedA)
    let hival := hi.map (takeIdx sortedA)
    let gamma := List.zipWith (fun (v : ℚ) (l : Int) => v - (l : ℚ)) virtual lo
    let res0 := List.zipWith (fun ab t => lerp ab.1 ab.2 t)
      (List.zipWith Prod.mk loval hival) gamma
    let res1 :=
      if ¬skipna ∧ nanmask.any id then
        List.zipWith (fun b x => if b then fill_value else x) nanmask res0
      else res0
    [res1]
  | none, some kv =>
    let virtual := List.zipWith
      (fun (s : Nat) (a : Nat) =>
        (s : Int) + (if 0 < kv then (a : Int) - kv else (kv.natAbs : Int) - 1))
      invIdx actual_sizes
    let rows := (List.range kv.natAbs).map fun j =>
      let loj := virtual.map fun v => (j : Int) + v
      List.zipWith (fun l x => if l < 0 then fill_value else x) loj (loj.map (takeIdx sortedA))
    if ¬skipna ∧ nanmask.any id then
      rows.map fun r => List.zipWith (fun b x => if b then fill_value else x) nanmask r
    else rows
  | none, none => []

/-- `Option`-valued traversal (the behaviour of `List.mapM` in `Option`). -/
def traverseOpt (f : α → Option β) : List α → Option (List β)
  | [] => some []
  | x :: xs =>
    match f x, traverseOpt f xs with
    | some y, some ys => some (y :: ys)
    | _, _ => none

/-- `_np_grouped_op` when the operator is `quantile_or_topk` (lines
197-201): the preallocated output grows one leading axis of length
nq = number of quantiles resp. |k|; the scatter branch writes every row at
the observed codes. -/
def np_grouped_op_rows (opRows : List Nat → List Int → List (List QB))
    (codes : List Int) (size? : Option Nat) (fill : QB) :
    Option (List (List QB)) :=
  if codes.isEmpty then none
  else
    let uniques := uniquesOf codes
    let invIdx := invIdxOf codes
    let sizeI : Int :=
      match size? with
      | some s => (s : Int)
      | none => listMax uniques + 1
    let size := sizeI.toNat
    let rows := opRows invIdx codes
    if uniques.length = size ∧ uniques = (List.range size).map Int.ofNat then
      some rows
    else
      traverseOpt (fun r => scatterWrite (List.replicate size fill) uniques r) rows

/-- `quantile = partial(_np_grouped_op, op=partial(quantile_or_topk,
skipna=False))` (line 238) at a scalar `q`, with the sorting pass in front. -/
def quantileReduce (codes : List Int) (data : List (Option ℚ)) (q : ℚ)
    (size? : Option Nat) (fill : QB) : Option (List (List QB)) :=
  let p := prepare_for_flox codes data
  np_grouped_op_rows (fun inv cs => quantile_or_topk p.2.1 inv (some q) none false cs fill)
    p.1 size? fill

/-- `nanquantile = partial(_np_grouped_op, op=partial(quantile_or_topk,
skipna=True))` (line 240) at a scalar `q`, with the sorting pass in front. -/
def nanquantileReduce (codes : List Int) (data : List (Option ℚ)) (q : ℚ)
    (size? : Option Nat) (fill : QB) : Option (List (List QB)) :=
  let p := prepare_for_flox codes data
  np_grouped_op_rows (fun inv cs => quantile_or_topk p.2.1 inv (some q) none true cs fill)
    p.1 size? fill

/-- `topk = partial(_np_grouped_op, op=partial(quantile_or_topk,
skipna=True))` (line 239), with the sorting pass in front. -/
def topkReduce (codes : List Int) (data : List (Option ℚ)) (k : Int)
    (size? : Option Nat) (fill : QB) : Option (List (List QB)) :=
  let p := prepare_for_flox codes data
  np_grouped_op_rows (fun inv cs => quantile_or_topk p.2.1 inv none (some k) true cs fill)
    p.1 size? fill

/-- Running maximum tail: `out[i] = max(out[i-1], l[i])`. -/
def cummaxAux (a : Nat) : List Nat → List Nat
  | [] => []
  | x :: xs => Max.max a x :: cummaxAux (Max.max a x) xs

/-- `np.maximum.accumulate` (line 305). -/
def cummax : List Nat → List Nat
  | [] => []
  | x :: xs => x :: cummaxAux x xs

/-- `mask[..., group_starts] = False` (line 302). -/
def setFalseAt (m : List Bool) (ps : List Nat) : List Bool :=
  ps.foldl (fun acc p => acc.set p false) m

/-- `ffill` (lines 290-313) for 1-D data: sort by codes, reset the missing
mask at run starts, forward-propagate positions under a running maximum,
gather, and undo the sort permutation (line 312-313).  On an empty input the
flag `np.concatenate(([True], group_idx[1:] != group_idx[:-1]))` (line 296)
still has length 1, so `group_starts = [0]` and the fancy-index assignment
`mask[..., [0]] = False` (line 302) is out of bounds on the size-0 axis and
raises; that is modelled as `none`, like the mask mismatch of
`_np_grouped_op` (see `flagOf`). -/
def ffill (codes : List Int) (data : List (Option ℚ)) :
    Option (List (Option ℚ)) :=
  if codes.isEmpty then none
  else
    let p := prepare_for_flox codes data
    let arr := p.2.1
    let group_starts := invIdxOf p.1
    let mask := setFalseAt (arr.map Option.isNone) group_starts
    let idx := cummax (List.zipWith (fun b i => if b then 0 else i) mask
      (List.range arr.length))
    let gathered := idx.map fun j => arr.getD j none
    some (match p.2.2 with
      | none => gathered
      | some perm => applyPerm (argsortStable (perm.map Int.ofNat)) gathered)

/-- The guarded branch of `_np_grouped_op` in isolation (line 208): the
reduceat writes its per-run results into the front of the preallocated
fill-initialized output (under the guard they cover it entirely). -/
def fastPathResult (segOp : List α → α) (codes : List Int) (data : List α)
    (size : Nat) (fill : α) : List α :=
  let results := (segmentsOf (invIdxOf codes) data.length data).map segOp
  results ++ (List.replicate size fill).drop results.length

/-- The scatter branch of `_np_grouped_op` in isolation (line 210):
`out[..., uniques] = op(...)` over a fill-initialized output. -/
def scatterPathResult (segOp : List α → α) (codes : List Int) (data : List α)
    (size : Nat) (fill : α) : Option (List α) :=
  scatterWrite (List.replicate size fill) (uniquesOf codes)
    ((segmentsOf (invIdxOf codes) data.length data).map segOp)


/-- Lift a binary operator to an `Option` accumulator (empty so far / value
so far); folding it from `none` computes the nonempty-fold of `reduceSeg`. -/
def optOp (op : α → α → α) : Option α → α → Option α
  | none, x => some x
  | some a, x => some (op a x)

/-- Grouped max with the sorting pass in front. -/
def maxReduce (junk : ℚ) (codes : List Int) (data : List ℚ)
    (size? : Option Nat) (fill : ℚ) : Option (List ℚ) :=
  withPrepare (maxOp junk) codes data size? fill

/-- Grouped min with the sorting pass in front. -/
def minReduce (junk : ℚ) (codes : List Int) (data : List ℚ)
    (size? : Option Nat) (fill : ℚ) : Option (List ℚ) :=
  withPrepare (minOp junk) codes data size? fill

/-- Grouped count (`nanlen`) with the sorting pass in front. -/
def countReduce (codes : List Int) (data : List (Option ℚ))
    (size? : Option Nat) (fill : ℚ) : Option (List ℚ) :=
  let p := prepare_for_flox codes data
  nanlen p.1 p.2.1 size? fill

/-- Grouped mean with the sorting pass in front. -/
def meanReduce (codes : List Int) (data : List ℚ)
    (size? : Option Nat) (fill? : Option ℚ) : Option (List ℚ) :=
  let p := prepare_for_flox codes data
  mean p.1 p.2.1 size? fill?

/-! ### Order-theoretic facts about the comparators used by the sorts. -/

instance : IsTrans (Nat × Int) argsortRel :=
  ⟨fun a b c hab hbc => by unfold argsortRel at *; omega⟩

instance : IsTotal (Nat × Int) argsortRel :=
  ⟨fun a b => by unfold argsortRel; omega⟩

instance : IsAntisymm (Nat × Int) argsortRel :=
  ⟨fun a b hab hba => by
    unfold argsortRel at hab hba
    exact Prod.ext (by omega) (by omega)⟩

instance : IsAntisymm Int (· < ·) := ⟨fun _ _ h h' => (lt_asymm h h').elim⟩

instance : IsTrans (Int × QB) pairRel :=
  ⟨fun a b c hab hbc => by
    unfold pairRel at *
    rcases hab with h1 | ⟨h1, h2⟩ <;> rcases hbc with h3 | ⟨h3, h4⟩
    · exact Or.inl (by omega)
    · exact Or.inl (by omega)
    · exact Or.inl (by omega)
    · exact Or.inr ⟨by omega, le_trans h2 h4⟩⟩

instance : IsTotal (Int × QB) pairRel :=
  ⟨fun a b => by
    unfold pairRel
    rcases lt_trichotomy a.1 b.1 with h | h | h
    · exact Or.inl (Or.inl h)
    · rcases le_total a.2 b.2 with h2 | h2
      · exact Or.inl (Or.inr ⟨h, h2⟩)
      · exact Or.inr (Or.inr ⟨h.symm, h2⟩)
    · exact Or.inr (Or.inl h)⟩

instance : IsAntisymm (Int × QB) pairRel :=
  ⟨fun a b hab hba => by
    unfold pairRel at hab hba
    rcases hab with h1 | ⟨h1, h2⟩ <;> rcases hba with h3 | ⟨h3, h4⟩
    · exfalso; omega
    · exfalso; omega
    · exfalso; omega
    · exact Prod.ext h1 (le_antisymm h2 h4)⟩

/-! ### Run decomposition: the reference form of the flag / boolean-mask /
nonzero computations of `_np_grouped_op`. -/

/-- Split a code list into maximal constant runs, pairing each run with its
aligned data slice. -/
def runs : List Int → List α → List (Int × List α)
  | [], _ => []
  | c :: cs, data =>
    (c, data.take ((cs.takeWhile (· == c)).length + 1)) ::
      runs (cs.dropWhile (· == c)) (data.drop ((cs.takeWhile (· == c)).length + 1))
termination_by l _ => l.length
decreasing_by
  have h := (List.dropWhile_sublist (fun x => x == c) (l := cs)).length_le
  simp only [List.length_cons]
  omega

theorem takeWhile_beq_eq_replicate (c : Int) (l : List Int) :
    l.takeWhile (· == c) = List.replicate (l.takeWhile (· == c)).length c := by
  apply List.eq_replicate_of_mem
  intro b hb
  simpa using List.mem_takeWhile_imp hb

theorem cons_eq_replicate_append (c : Int) (cs : List Int) :
    c :: cs =
      List.replicate ((cs.takeWhile (· == c)).length + 1) c ++ cs.dropWhile (· == c) := by
  rw [List.replicate_succ, List.cons_append]
  conv_lhs => rw [← List.takeWhile_append_dropWhile (p := (· == c)) (l := cs)]
  rw [← takeWhile_beq_eq_replicate]

theorem head?_dropWhile_beq (c : Int) (cs : List Int) :
    ∀ x, (cs.dropWhile (· == c)).head? = some x → x ≠ c := by
  induction cs with
  | nil => simp
  | cons y ys ih =>
    intro x hx
    by_cases h : y = c
    · subst h
      rw [List.dropWhile_cons] at hx
      simp only [beq_self_eq_true, if_true] at hx
      exact ih x hx
    · rw [List.dropWhile_cons] at hx
      simp only [beq_iff_eq, h, if_false] at hx
      simp only [List.head?_cons, Option.some.injEq] at hx
      exact hx ▸ h

theorem chainFlags_length_cons (c : Int) (cs : List Int) :
    (chainFlags (c :: cs)).length = cs.length := by
  induction cs generalizing c with
  | nil => rfl
  | cons c2 rest ih => simp [chainFlags, ih]

theorem flagOf_length (l : List Int) : (flagOf l).length = l.length := by
  cases l with
  | nil => rfl
  | cons c cs => simp [flagOf, chainFlags_length_cons]

theorem flagOf_replicate_append (c : Int) (m : Nat) (rest : List Int)
    (hm : 1 ≤ m) (hr : ∀ x, rest.head? = some x → x ≠ c) :
    flagOf (List.replicate m c ++ rest) =
      (true :: List.replicate (m - 1) false) ++ flagOf rest := by
  induction m with
  | zero => omega
  | succ m ih =>
    cases m with
    | zero =>
      cases rest with
      | nil => simp [flagOf, chainFlags]
      | cons r rs =>
        have hrc : r ≠ c := hr r rfl
        simp [flagOf, chainFlags, hrc]
    | succ m' =>
      have ih' := ih (by omega)
      have hsplit : List.replicate (m' + 1) c ++ rest =
          c :: (List.replicate m' c ++ rest) := by
        rw [List.replicate_succ, List.cons_append]
      have hchain : chainFlags (c :: (List.replicate m' c ++ rest)) =
          List.replicate m' false ++ flagOf rest := by
        have := ih'
        rw [hsplit] at this
        simpa [flagOf] using this
      rw [show List.replicate (m' + 1 + 1) c ++ rest =
        c :: c :: (List.replicate m' c ++ rest) by
          rw [List.replicate_succ, List.replicate_succ] ; rfl]
      show true :: chainFlags (c :: c :: (List.replicate m' c ++ rest)) = _
      rw [show chainFlags (c :: c :: (List.replicate m' c ++ rest)) =
        decide (c ≠ c) :: chainFlags (c :: (List.replicate m' c ++ rest)) from rfl]
      simp [hchain, List.replicate_succ]

theorem maskSelect_append (l₁ l₂ : List α) (m₁ m₂ : List Bool)
    (h : l₁.length = m₁.length) :
    maskSelect (l₁ ++ l₂) (m₁ ++ m₂) = maskSelect l₁ m₁ ++ maskSelect l₂ m₂ := by
  induction l₁ generalizing m₁ with
  | nil =>
    cases m₁ with
    | nil => simp [maskSelect]
    | cons => simp at h
  | cons a as ih =>
    cases m₁ with
    | nil => simp at h
    | cons b bs =>
      simp only [List.cons_append, maskSelect]
      by_cases hb : b <;> simp [hb, ih bs (by simpa using h)]

theorem maskSelect_replicate_false (l : List α) (k : Nat) :
    maskSelect l (List.replicate k false) = [] := by
  induction l generalizing k with
  | nil => cases k <;> rfl
  | cons a as ih =>
    cases k with
    | zero => rfl
    | succ k' => simpa [maskSelect, List.replicate_succ] using ih k'

theorem uniquesOf_replicate_append (c : Int) (m : Nat) (rest : List Int)
    (hm : 1 ≤ m) (hr : ∀ x, rest.head? = some x → x ≠ c) :
    uniquesOf (List.replicate m c ++ rest) = c :: uniquesOf rest := by
  unfold uniquesOf
  rw [flagOf_replicate_append c m rest hm hr]
  rw [show List.replicate m c = c :: List.replicate (m - 1) c by
    cases m with
    | zero => omega
    | succ m' => simp [List.replicate_succ]]
  rw [List.cons_append, List.cons_append]
  show maskSelect (c :: (List.replicate (m - 1) c ++ rest))
    (true :: (List.replicate (m - 1) false ++ flagOf rest)) = _
  rw [show maskSelect (c :: (List.replicate (m - 1) c ++ rest))
      (true :: (List.replicate (m - 1) false ++ flagOf rest)) =
      c :: maskSelect (List.replicate (m - 1) c ++ rest)
        (List.replicate (m - 1) false ++ flagOf rest) by simp [maskSelect]]
  rw [maskSelect_append _ _ _ _ (by simp), maskSelect_replicate_false]
  rfl

theorem truePositions_append (m₁ m₂ : List Bool) :
    truePositions (m₁ ++ m₂) =
      truePositions m₁ ++ (truePositions m₂).map (· + m₁.length) := by
  induction m₁ with
  | nil => simp [truePositions]
  | cons b bs ih =>
    simp only [List.cons_append, truePositions, List.length_cons]
    have hcomp : ((· + 1) ∘ (· + bs.length) : Nat → Nat) = (· + (bs.length + 1)) := by
      funext x; simp; omega
    by_cases hb : b <;>
      simp [hb, ih, List.map_append, List.map_map, hcomp]

theorem truePositions_replicate_false (k : Nat) :
    truePositions (List.replicate k false) = [] := by
  induction k with
  | zero => rfl
  | succ k ih => simp [List.replicate_succ, truePositions, ih]

theorem invIdxOf_replicate_append (c : Int) (m : Nat) (rest : List Int)
    (hm : 1 ≤ m) (hr : ∀ x, rest.head? = some x → x ≠ c) :
    invIdxOf (List.replicate m c ++ rest) = 0 :: (invIdxOf rest).map (· + m) := by
  unfold invIdxOf
  rw [flagOf_replicate_append c m rest hm hr, List.cons_append,
    show truePositions (true :: (List.replicate (m - 1) false ++ flagOf rest)) =
      0 :: (truePositions (List.replicate (m - 1) false ++ flagOf rest)).map (· + 1) by
        simp [truePositions]]
  rw [truePositions_append, truePositions_replicate_false, List.nil_append,
    List.map_map]
  congr 1
  apply List.map_congr_left
  intro x _
  simp [List.length_replicate]
  omega

theorem segmentsOf_map_add (J : List Nat) (m n : Nat) (d₁ d₂ : List α)
    (hd : d₁.length = m) :
    segmentsOf (J.map (· + m)) (n + m) (d₁ ++ d₂) = segmentsOf J n d₂ := by
  unfold segmentsOf
  rw [← List.map_tail]
  rw [show J.tail.map (· + m) ++ [n + m] = (J.tail ++ [n]).map (· + m) by simp]
  rw [List.zip_map, List.map_map]
  apply List.map_congr_left
  intro se _
  subst hd
  simp only [Function.comp_apply, Prod.map_fst, Prod.map_snd]
  rw [Nat.add_comm se.2 d₁.length, Nat.add_comm se.1 d₁.length]
  rw [List.take_append, List.drop_append]

theorem invIdxOf_cons_zero (c : Int) (cs : List Int) :
    invIdxOf (c :: cs) =
      0 :: (truePositions (chainFlags (c :: cs))).map (· + 1) := by
  simp [invIdxOf, flagOf, truePositions]

theorem segmentsOf_invIdx_peel (c : Int) (m : Nat) (rest : List Int)
    (hm : 1 ≤ m) (hr : ∀ x, rest.head? = some x → x ≠ c) (d₁ d₂ : List α)
    (hd : d₁.length = m) (hlen : rest.length = d₂.length) :
    segmentsOf (invIdxOf (List.replicate m c ++ rest)) (m + rest.length) (d₁ ++ d₂) =
      d₁ :: segmentsOf (invIdxOf rest) rest.length d₂ := by
  rw [invIdxOf_replicate_append c m rest hm hr]
  cases rest with
  | nil =>
    have hd₂ : d₂ = [] := by
      apply List.eq_nil_of_length_eq_zero
      simpa using hlen.symm
    subst hd₂
    show segmentsOf [0] (m + List.length ([] : List Int)) (d₁ ++ []) =
      d₁ :: segmentsOf (invIdxOf []) (List.length ([] : List Int)) []
    simp only [List.length_nil, Nat.add_zero, List.append_nil]
    show segmentsOf [0] m d₁ = d₁ :: segmentsOf [] 0 []
    unfold segmentsOf
    simp [List.take_of_length_le (le_of_eq hd)]
  | cons r rs =>
    obtain ⟨T, hT⟩ : ∃ T, invIdxOf (r :: rs) = 0 :: T := by
      rw [invIdxOf_cons_zero]; exact ⟨_, rfl⟩
    rw [hT]
    show segmentsOf (0 :: (0 + m) :: T.map (· + m)) (m + (r :: rs).length) (d₁ ++ d₂) = _
    have hpeel : segmentsOf (0 :: (0 + m) :: T.map (· + m)) (m + (r :: rs).length)
        (d₁ ++ d₂) =
        ((d₁ ++ d₂).take (0 + m)).drop 0 ::
          segmentsOf ((0 :: T).map (· + m)) (m + (r :: rs).length) (d₁ ++ d₂) := by
      unfold segmentsOf
      rfl
    rw [hpeel]
    have hseg1 : ((d₁ ++ d₂).take (0 + m)).drop 0 = d₁ := by
      simp only [Nat.zero_add, List.drop_zero]
      exact List.take_left' hd
    rw [hseg1, ← hT, Nat.add_comm m (r :: rs).length]
    rw [segmentsOf_map_add (invIdxOf (r :: rs)) m (r :: rs).length d₁ d₂ hd]

/-! ### Bridge: the flag-based computations equal the run decomposition -/

theorem uniquesOf_eq_runs_fst (l : List Int) (d : List α) :
    uniquesOf l = (runs l d).map Prod.fst := by
  induction l, d using runs.induct with
  | case1 d => simp [uniquesOf, maskSelect, flagOf, runs]
  | case2 c cs data ih =>
    rw [runs]
    simp only [List.map_cons]
    conv_lhs => rw [cons_eq_replicate_append c cs]
    rw [uniquesOf_replicate_append _ _ _ (by omega) (head?_dropWhile_beq c cs), ih]

theorem segmentsOf_eq_runs_snd (l : List Int) (d : List α) :
    l.length = d.length →
      segmentsOf (invIdxOf l) d.length d = (runs l d).map Prod.snd := by
  induction l, d using runs.induct with
  | case1 d =>
    intro h
    have : d = [] := List.eq_nil_of_length_eq_zero h.symm
    subst this
    simp [segmentsOf, invIdxOf, flagOf, truePositions, runs]
  | case2 c cs data ih =>
    intro hlen
    rw [runs]
    simp only [List.map_cons]
    set m := (cs.takeWhile (· == c)).length + 1 with hm
    have hmle : m ≤ (c :: cs).length := by
      have := (List.takeWhile_sublist (fun x => x == c) (l := cs)).length_le
      simp only [List.length_cons]
      omega
    have hdlen : (data.take m).length = m := by
      rw [List.length_take]
      omega
    have hrest_len : (cs.dropWhile (· == c)).length = (data.drop m).length := by
      have h1 : (c :: cs).length =
          m + (cs.dropWhile (· == c)).length := by
        conv_lhs => rw [cons_eq_replicate_append c cs]
        simp [← hm]
      rw [List.length_drop]
      omega
    have hsplit : data = data.take m ++ data.drop m := (List.take_append_drop m data).symm
    have hstop : data.length = m + (cs.dropWhile (· == c)).length := by
      rw [← hlen]
      conv_lhs => rw [cons_eq_replicate_append c cs]
      simp [← hm]
    have key := segmentsOf_invIdx_peel c m (cs.dropWhile (· == c)) (by omega)
      (head?_dropWhile_beq c cs) (data.take m) (data.drop m) hdlen hrest_len
    rw [← cons_eq_replicate_append c cs, ← hsplit, ← hstop] at key
    rw [key]
    rw [show (cs.dropWhile (· == c)).length = (data.drop m).length from hrest_len]
    rw [ih hrest_len]

theorem runs_cons (c : Int) (cs : List Int) (data : List α) :
    runs (c :: cs) data =
      (c, data.take ((cs.takeWhile (· == c)).length + 1)) ::
        runs (cs.dropWhile (· == c)) (data.drop ((cs.takeWhile (· == c)).length + 1)) := by
  rw [runs]

theorem length_cons_split (c : Int) (cs : List Int) :
    (c :: cs).length =
      ((cs.takeWhile (· == c)).length + 1) + (cs.dropWhile (· == c)).length := by
  conv_lhs => rw [cons_eq_replicate_append c cs]
  simp

theorem mem_runs_fst_iff (l : List Int) (d : List α) (x : Int) :
    x ∈ (runs l d).map Prod.fst ↔ x ∈ l := by
  induction l, d using runs.induct with
  | case1 d => simp [runs]
  | case2 c cs data ih =>
    rw [runs_cons]
    simp only [List.map_cons, List.mem_cons, ih]
    have hsub : ∀ y, y ∈ cs.dropWhile (· == c) → y ∈ cs := fun y hy =>
      (List.dropWhile_sublist _).subset hy
    have hsplit : ∀ y, y ∈ cs → y = c ∨ y ∈ cs.dropWhile (· == c) := by
      intro y hy
      rw [← List.takeWhile_append_dropWhile (p := (· == c)) (l := cs)] at hy
      rcases List.mem_append.mp hy with h | h
      · left; simpa using List.mem_takeWhile_imp h
      · right; exact h
    constructor
    · rintro (rfl | h)
      · exact Or.inl rfl
      · exact Or.inr (hsub x h)
    · rintro (rfl | h)
      · exact Or.inl rfl
      · rcases hsplit x h with rfl | h
        · exact Or.inl rfl
        · exact Or.inr h

theorem runs_snd_flatten (l : List Int) (d : List α) :
    l.length = d.length → ((runs l d).map Prod.snd).flatten = d := by
  induction l, d using runs.induct with
  | case1 d =>
    intro h
    have : d = [] := List.eq_nil_of_length_eq_zero h.symm
    subst this
    simp [runs]
  | case2 c cs data ih =>
    intro hlen
    rw [runs_cons]
    simp only [List.map_cons, List.flatten_cons]
    have hrest : (cs.dropWhile (· == c)).length =
        (data.drop ((cs.takeWhile (· == c)).length + 1)).length := by
      have hsplit := length_cons_split c cs
      simp only [List.length_cons] at hsplit hlen
      rw [List.length_drop]
      omega
    rw [ih hrest, List.take_append_drop]

/-- All later codes in a sorted list strictly exceed the (peeled) first run's
code. -/
theorem sorted_dropWhile_gt (c : Int) (cs : List Int)
    (hs : (c :: cs).Pairwise (· ≤ ·)) :
    ∀ x ∈ cs.dropWhile (· == c), c < x := by
  intro x hx
  cases hdw : cs.dropWhile (· == c) with
  | nil => rw [hdw] at hx; cases hx
  | cons r rs =>
    have hrc : r ≠ c := head?_dropWhile_beq c cs r (by rw [hdw]; rfl)
    have hsub : (r :: rs).Sublist cs := hdw ▸ List.dropWhile_sublist _
    have hcr : c ≤ r := (List.pairwise_cons.mp hs).1 r (hsub.subset (List.mem_cons_self _ _))
    have hpw : (r :: rs).Pairwise (· ≤ ·) :=
      List.Pairwise.sublist hsub (List.pairwise_cons.mp hs).2
    rw [hdw] at hx
    rcases List.mem_cons.mp hx with rfl | hx
    · exact lt_of_le_of_ne hcr (Ne.symm hrc)
    · calc c < r := lt_of_le_of_ne hcr (Ne.symm hrc)
        _ ≤ x := (List.pairwise_cons.mp hpw).1 x hx

theorem runs_fst_sorted (l : List Int) (d : List α) :
    l.Pairwise (· ≤ ·) → ((runs l d).map Prod.fst).Pairwise (· < ·) := by
  induction l, d using runs.induct with
  | case1 d => intro _; simp [runs]
  | case2 c cs data ih =>
    intro hs
    rw [runs_cons]
    simp only [List.map_cons, List.pairwise_cons]
    have hsp : (cs.dropWhile (· == c)).Pairwise (· ≤ ·) :=
      List.Pairwise.sublist (List.dropWhile_sublist _) (List.pairwise_cons.mp hs).2
    refine ⟨?_, ih hsp⟩
    intro x hx
    have hxr : x ∈ cs.dropWhile (· == c) := (mem_runs_fst_iff _ _ x).mp hx
    exact sorted_dropWhile_gt c cs hs x hxr

theorem runs_snd_eq_filter (l : List Int) (d : List α) :
    l.length = d.length → l.Pairwise (· ≤ ·) →
      ∀ p ∈ runs l d,
        p.2 = ((l.zip d).filter (fun q => q.1 == p.1)).map Prod.snd := by
  induction l, d using runs.induct with
  | case1 d => intro _ _ p hp; simp [runs] at hp
  | case2 c cs data ih =>
    intro hlen hs p hp
    have hmlen := length_cons_split c cs
    simp only [List.length_cons] at hmlen hlen
    have htake : (data.take ((cs.takeWhile (· == c)).length + 1)).length =
        (cs.takeWhile (· == c)).length + 1 := by
      rw [List.length_take]
      exact min_eq_left (by omega)
    have hrestlen : (cs.dropWhile (· == c)).length =
        (data.drop ((cs.takeWhile (· == c)).length + 1)).length := by
      rw [List.length_drop]
      omega
    have hzip : (c :: cs).zip data =
        (List.replicate ((cs.takeWhile (· == c)).length + 1) c).zip
            (data.take ((cs.takeWhile (· == c)).length + 1)) ++
          (cs.dropWhile (· == c)).zip
            (data.drop ((cs.takeWhile (· == c)).length + 1)) := by
      conv_lhs =>
        rw [cons_eq_replicate_append c cs,
          (List.take_append_drop ((cs.takeWhile (· == c)).length + 1) data).symm]
      exact List.zip_append (by simp [htake])
    rw [runs_cons] at hp
    rcases List.mem_cons.mp hp with rfl | hp
    · show data.take _ = _
      rw [hzip, List.filter_append]
      have h1 : ((List.replicate ((cs.takeWhile (· == c)).length + 1) c).zip
          (data.take ((cs.takeWhile (· == c)).length + 1))).filter
            (fun q => q.1 == c) =
          (List.replicate ((cs.takeWhile (· == c)).length + 1) c).zip
            (data.take ((cs.takeWhile (· == c)).length + 1)) := by
        rw [List.filter_eq_self]
        rintro ⟨a, b⟩ hab
        have := (List.of_mem_zip hab).1
        simpa using List.eq_of_mem_replicate this
      have h2 : ((cs.dropWhile (· == c)).zip
          (data.drop ((cs.takeWhile (· == c)).length + 1))).filter
            (fun q => q.1 == c) = [] := by
        rw [List.filter_eq_nil_iff]
        rintro ⟨a, b⟩ hab
        have ha := (List.of_mem_zip hab).1
        have hlt := sorted_dropWhile_gt c cs hs a ha
        have hne : a ≠ c := ne_of_gt hlt
        simpa using hne
      rw [h1, h2, List.append_nil, List.map_snd_zip _ _ (by simp [htake])]
    · have hsp : (cs.dropWhile (· == c)).Pairwise (· ≤ ·) :=
        List.Pairwise.sublist (List.dropWhile_sublist _) (List.pairwise_cons.mp hs).2
      have hp1 : p.1 ∈ cs.dropWhile (· == c) := by
        have : p.1 ∈ (runs (cs.dropWhile (· == c))
            (data.drop ((cs.takeWhile (· == c)).length + 1))).map Prod.fst :=
          List.mem_map_of_mem Prod.fst hp
        exact (mem_runs_fst_iff _ _ _).mp this
      have hgt : c < p.1 := sorted_dropWhile_gt c cs hs p.1 hp1
      rw [ih hrestlen hsp p hp, hzip, List.filter_append]
      have h1 : ((List.replicate ((cs.takeWhile (· == c)).length + 1) c).zip
          (data.take ((cs.takeWhile (· == c)).length + 1))).filter
            (fun q => q.1 == p.1) = [] := by
        rw [List.filter_eq_nil_iff]
        rintro ⟨a, b⟩ hab
        have ha := List.eq_of_mem_replicate (List.of_mem_zip hab).1
        have hne : a ≠ p.1 := by rw [ha]; exact ne_of_lt hgt
        simpa using hne
      rw [h1, List.nil_append]

/-- For sorted codes the reduceat segments are exactly the per-label value
selections. -/
theorem segments_eq_groupVals (codes : List Int) (d : List α)
    (hlen : codes.length = d.length) (hs : codes.Pairwise (· ≤ ·)) :
    segmentsOf (invIdxOf codes) d.length d =
      (uniquesOf codes).map
        (fun u => ((codes.zip d).filter (fun q => q.1 == u)).map Prod.snd) := by
  rw [segmentsOf_eq_runs_snd codes d hlen, uniquesOf_eq_runs_fst codes d, List.map_map]
  apply List.map_congr_left
  intro p hp
  simpa using runs_snd_eq_filter codes d hlen hs p hp

theorem mem_uniquesOf_iff (codes : List Int) (x : Int) :
    x ∈ uniquesOf codes ↔ x ∈ codes := by
  rw [uniquesOf_eq_runs_fst codes codes]
  exact mem_runs_fst_iff codes codes x

theorem uniquesOf_sorted (codes : List Int) (hs : codes.Pairwise (· ≤ ·)) :
    (uniquesOf codes).Pairwise (· < ·) := by
  rw [uniquesOf_eq_runs_fst codes codes]
  exact runs_fst_sorted codes codes hs

theorem uniquesOf_ne_nil (codes : List Int) (hne : codes ≠ []) :
    uniquesOf codes ≠ [] := by
  cases codes with
  | nil => exact absurd rfl hne
  | cons c cs =>
    rw [uniquesOf_eq_runs_fst (c :: cs) (c :: cs), runs_cons]
    simp

/-! ### The fancy-index scatter -/

theorem scatterWrite_spec (ts : List Int) (vs : List α) (out : List α)
    (hlen : ts.length = vs.length)
    (hin : ∀ t ∈ ts, 0 ≤ t ∧ t < (out.length : Int))
    (hnd : ts.Nodup) :
    ∃ out', scatterWrite out ts vs = some out' ∧ out'.length = out.length ∧
      (∀ p : Nat, (p : Int) ∉ ts → out'.get? p = out.get? p) ∧
      (∀ j : Nat, ∀ hj : j < ts.length, ∀ hv : j < vs.length,
        out'.get? (ts.get ⟨j, hj⟩).toNat = some (vs.get ⟨j, hv⟩)) := by
  induction ts generalizing vs out with
  | nil =>
    cases vs with
    | nil =>
      exact ⟨out, rfl, rfl, fun p _ => rfl, fun j hj _ => absurd hj (by simp)⟩
    | cons v vs => simp at hlen
  | cons t ts ih =>
    cases vs with
    | nil => simp at hlen
    | cons v vs =>
      obtain ⟨ht0, htlen⟩ := hin t (List.mem_cons_self _ _)
      have hj : (if t < 0 then t + (out.length : Int) else t) = t := if_neg (by omega)
      have hstep : scatterWrite out (t :: ts) (v :: vs) =
          scatterWrite (out.set t.toNat v) ts vs := by
        show (let j : Int := if t < 0 then t + out.length else t;
          if 0 ≤ j ∧ j < (out.length : Int) then
            scatterWrite (out.set j.toNat v) ts vs else none) = _
        simp only [hj, if_pos (And.intro ht0 htlen)]
      have hin' : ∀ x ∈ ts, 0 ≤ x ∧ x < ((out.set t.toNat v).length : Int) := by
        intro x hx
        rw [List.length_set]
        exact hin x (List.mem_cons_of_mem _ hx)
      obtain ⟨out', h₁, h₂, h₃, h₄⟩ :=
        ih vs (out.set t.toNat v) (by simpa using hlen) hin' hnd.of_cons
      refine ⟨out', hstep ▸ h₁, by rw [h₂, List.length_set], ?_, ?_⟩
      · intro p hp
        have hpt : (p : Int) ≠ t := fun h => hp (h ▸ List.mem_cons_self _ _)
        have hset : (out.set t.toNat v).get? p = out.get? p :=
          List.get?_set_ne v out (show t.toNat ≠ p by omega)
        rw [h₃ p (fun h => hp (List.mem_cons_of_mem _ h)), hset]
      · intro j hj' hv
        cases j with
        | zero =>
          have hnotin : ((t.toNat : Nat) : Int) ∉ ts := by
            rw [Int.toNat_of_nonneg ht0]
            exact (List.nodup_cons.mp hnd).1
          have := h₃ t.toNat hnotin
          rw [show (t :: ts).get ⟨0, hj'⟩ = t from rfl, this,
            List.get?_eq_getElem?, List.getElem?_set, if_pos rfl,
            if_pos (by omega)]
          rfl
        | succ j =>
          have hj'' : j < ts.length := by simpa using hj'
          have hv' : j < vs.length := by simpa using hv
          have := h₄ j hj'' hv'
          simpa using this

/-! ### `np.max` -/

theorem le_foldl_max (a : Int) (xs : List Int) :
    a ≤ xs.foldl max a ∧ ∀ x ∈ xs, x ≤ xs.foldl max a := by
  induction xs generalizing a with
  | nil => exact ⟨le_refl a, by simp⟩
  | cons x xs ih =>
    obtain ⟨h1, h2⟩ := ih (max a x)
    rw [List.foldl_cons]
    refine ⟨le_trans (le_max_left a x) h1, ?_⟩
    intro y hy
    rcases List.mem_cons.mp hy with rfl | hy
    · exact le_trans (le_max_right a y) h1
    · exact h2 y hy

theorem foldl_max_mem (a : Int) (xs : List Int) :
    xs.foldl max a = a ∨ xs.foldl max a ∈ xs := by
  induction xs generalizing a with
  | nil => left; rfl
  | cons x xs ih =>
    rw [List.foldl_cons]
    rcases ih (max a x) with h | h
    · rcases max_choice a x with hm | hm
      · left; rw [h, hm]
      · right; rw [h, hm]; exact List.mem_cons_self _ _
    · right; exact List.mem_cons_of_mem _ h

theorem listMax_mem (l : List Int) (h : l ≠ []) : listMax l ∈ l := by
  cases l with
  | nil => exact absurd rfl h
  | cons x xs =>
    show xs.foldl max x ∈ x :: xs
    rcases foldl_max_mem x xs with h' | h'
    · rw [h']; exact List.mem_cons_self _ _
    · exact List.mem_cons_of_mem _ h'

theorem le_listMax (l : List Int) (x : Int) (h : x ∈ l) : x ≤ listMax l := by
  cases l with
  | nil => cases h
  | cons y ys =>
    rcases List.mem_cons.mp h with rfl | h'
    · exact (le_foldl_max x ys).1
    · exact (le_foldl_max y ys).2 x h'

/-! ### Characterization of `_np_grouped_op` on sorted input -/

theorem np_grouped_op_eq (segOp : List α → α) (codes : List Int) (data : List α)
    (size : Nat) (fill : α) (hne : codes ≠ []) :
    np_grouped_op segOp codes data (some size) fill =
      (if (uniquesOf codes).length = size ∧
          uniquesOf codes = (List.range size).map Int.ofNat then
        some ((segmentsOf (invIdxOf codes) data.length data).map segOp)
      else
        scatterWrite (List.replicate size fill) (uniquesOf codes)
          ((segmentsOf (invIdxOf codes) data.length data).map segOp)) := by
  unfold np_grouped_op
  rw [if_neg (by simpa using hne)]
  simp only [Int.toNat_natCast]

theorem np_grouped_op_none (segOp : List α → α) (codes : List Int) (data : List α)
    (fill : α) :
    np_grouped_op segOp codes data none fill =
      np_grouped_op segOp codes data
        (some ((listMax (uniquesOf codes) + 1).toNat)) fill := by
  unfold np_grouped_op
  simp only [Int.toNat_natCast]

theorem np_grouped_op_char (segOp : List α → α) (codes : List Int)
    (data : List α) (size : Nat) (fill : α)
    (hne : codes ≠ []) (hlen : codes.length = data.length)
    (hs : codes.Pairwise (· ≤ ·))
    (hrange : ∀ c ∈ codes, 0 ≤ c ∧ c < (size : Int)) :
    ∃ out, np_grouped_op segOp codes data (some size) fill = some out ∧
      out.length = size ∧
      ∀ g : Nat, g < size →
        out.get? g = some (if (g : Int) ∈ codes
          then segOp (((codes.zip data).filter (fun q => q.1 == (g : Int))).map Prod.snd)
          else fill) := by
  have hresults : (segmentsOf (invIdxOf codes) data.length data).map segOp =
      (uniquesOf codes).map
        (fun u => segOp (((codes.zip data).filter (fun q => q.1 == u)).map Prod.snd)) := by
    rw [segments_eq_groupVals codes data hlen hs, List.map_map]
    rfl
  have hmem : ∀ x : Int, x ∈ uniquesOf codes ↔ x ∈ codes := mem_uniquesOf_iff codes
  have hsorted := uniquesOf_sorted codes hs
  have hnodup : (uniquesOf codes).Nodup := hsorted.imp ne_of_lt
  rw [np_grouped_op_eq segOp codes data size fill hne, hresults]
  by_cases hguard : (uniquesOf codes).length = size ∧
      uniquesOf codes = (List.range size).map Int.ofNat
  · rw [if_pos hguard]
    refine ⟨_, rfl, by simp [hguard.1], ?_⟩
    intro g hg
    rw [List.get?_eq_getElem?, List.getElem?_map, hguard.2, List.getElem?_map,
      List.getElem?_range hg]
    have hgmem : (g : Int) ∈ codes := by
      rw [← hmem]
      rw [hguard.2]
      exact List.mem_map_of_mem _ (List.mem_range.mpr hg)
    simp [hgmem]
  · rw [if_neg hguard]
    have hbounds : ∀ t ∈ uniquesOf codes,
        0 ≤ t ∧ t < ((List.replicate size fill).length : Int) := by
      intro t ht
      rw [List.length_replicate]
      exact hrange t ((hmem t).mp ht)
    obtain ⟨out, h₁, h₂, h₃, h₄⟩ := scatterWrite_spec (uniquesOf codes)
      ((uniquesOf codes).map
        (fun u => segOp (((codes.zip data).filter (fun q => q.1 == u)).map Prod.snd)))
      (List.replicate size fill) (by simp) hbounds hnodup
    refine ⟨out, h₁, by rw [h₂, List.length_replicate], ?_⟩
    intro g hg
    by_cases hgmem : (g : Int) ∈ codes
    · rw [if_pos hgmem]
      obtain ⟨⟨j, hj⟩, hget⟩ := List.mem_iff_get.mp ((hmem _).mpr hgmem)
      have hv : j < ((uniquesOf codes).map
          (fun u => segOp (((codes.zip data).filter (fun q => q.1 == u)).map Prod.snd))).length := by
        simpa using hj
      have := h₄ j hj hv
      rw [hget] at this
      rw [show ((g : Int)).toNat = g from Int.toNat_natCast g] at this
      rw [this, List.get_map]
      simp only [hget]
    · rw [if_neg hgmem]
      have : ((g : Nat) : Int) ∉ uniquesOf codes := fun h => hgmem ((hmem _).mp h)
      rw [h₃ g this, List.get?_eq_getElem?, List.getElem?_replicate, if_pos hg]

/-! ### The sorting pass -/

theorem issorted_iff (l : List Int) : issorted l = true ↔ l.Chain' (· ≤ ·) := by
  induction l with
  | nil => simp [issorted]
  | cons c cs ih =>
    cases cs with
    | nil => simp [issorted]
    | cons c2 rest =>
      rw [show issorted (c :: c2 :: rest) =
        (decide (c ≤ c2) && issorted (c2 :: rest)) from rfl]
      rw [List.chain'_cons]
      simp [ih]

theorem argsortStable_perm_range (codes : List Int) :
    (argsortStable codes).Perm (List.range codes.length) := by
  unfold argsortStable
  have h1 : ((List.insertionSort argsortRel codes.enum).map Prod.fst).Perm
      (codes.enum.map Prod.fst) := (List.perm_insertionSort _ _).map _
  rw [List.enum_map_fst codes] at h1
  exact h1

theorem filterMap_eq_map_of_some (f : α → Option β) (g : α → β) (l : List α)
    (h : ∀ x ∈ l, f x = some (g x)) : l.filterMap f = l.map g := by
  induction l with
  | nil => rfl
  | cons x xs ih =>
    rw [List.filterMap_cons, h x (List.mem_cons_self _ _), List.map_cons,
      ih (fun y hy => h y (List.mem_cons_of_mem _ hy))]

theorem applyPerm_argsort_eq_map_snd (codes : List Int) :
    applyPerm (argsortStable codes) codes =
      (List.insertionSort argsortRel codes.enum).map Prod.snd := by
  unfold applyPerm argsortStable
  rw [List.filterMap_map]
  apply filterMap_eq_map_of_some
  intro x hx
  have hx' : x ∈ codes.enum := ((List.perm_insertionSort _ _).mem_iff).mp hx
  exact List.mem_enum_iff_get?.mp hx'

theorem applyPerm_argsort_pairwise (codes : List Int) :
    (applyPerm (argsortStable codes) codes).Pairwise (· ≤ ·) := by
  rw [applyPerm_argsort_eq_map_snd]
  refine List.Pairwise.map Prod.snd ?_ (List.sorted_insertionSort argsortRel codes.enum)
  intro a b hab
  unfold argsortRel at hab
  omega

theorem applyPerm_get? (q : List Nat) (l : List α)
    (hq : ∀ j ∈ q, j < l.length) (i : Nat) :
    (applyPerm q l).get? i = (q.get? i).bind l.get? := by
  induction q generalizing i with
  | nil => simp [applyPerm]
  | cons j js ih =>
    have hj : j < l.length := hq j (List.mem_cons_self _ _)
    obtain ⟨a, ha⟩ : ∃ a, l.get? j = some a := ⟨l.get ⟨j, hj⟩, List.get?_eq_get hj⟩
    show (List.filterMap l.get? (j :: js)).get? i = _
    rw [List.filterMap_cons, ha]
    cases i with
    | zero =>
      show some a = l.get? j
      exact ha.symm
    | succ i =>
      simp only [List.get?_cons_succ]
      exact ih (fun x hx => hq x (List.mem_cons_of_mem _ hx)) i

theorem applyPerm_length (q : List Nat) (l : List α)
    (hq : ∀ j ∈ q, j < l.length) : (applyPerm q l).length = q.length := by
  induction q with
  | nil => rfl
  | cons j js ih =>
    have hj : j < l.length := hq j (List.mem_cons_self _ _)
    obtain ⟨a, ha⟩ : ∃ a, l.get? j = some a := ⟨l.get ⟨j, hj⟩, List.get?_eq_get hj⟩
    show (List.filterMap l.get? (j :: js)).length = _
    rw [List.filterMap_cons, ha]
    show (a :: List.filterMap l.get? js).length = (j :: js).length
    rw [List.length_cons, List.length_cons]
    rw [show (List.filterMap l.get? js).length = (applyPerm js l).length from rfl]
    rw [ih (fun x hx => hq x (List.mem_cons_of_mem _ hx))]

theorem get?_zip_eq (l : List α) (l' : List β) (i : Nat) :
    (l.zip l').get? i = (l.get? i).bind (fun a => (l'.get? i).map (a, ·)) := by
  induction l generalizing l' i with
  | nil => simp
  | cons a as ih =>
    cases l' with
    | nil => simp
    | cons b bs =>
      cases i with
      | zero => simp
      | succ i => simpa using ih bs i

theorem applyPerm_zip (q : List Nat) (l : List α) (l' : List β)
    (hlen : l.length = l'.length) (hq : ∀ j ∈ q, j < l.length) :
    applyPerm q (l.zip l') = (applyPerm q l).zip (applyPerm q l') := by
  have hq' : ∀ j ∈ q, j < l'.length := fun j hj => hlen ▸ hq j hj
  have hqz : ∀ j ∈ q, j < (l.zip l').length := by
    intro j hj
    rw [List.length_zip]
    exact lt_min (hq j hj) (hq' j hj)
  apply List.ext_get?
  intro i
  rw [get?_zip_eq, applyPerm_get? q (l.zip l') hqz i, applyPerm_get? q l hq i,
    applyPerm_get? q l' hq' i]
  cases hqi : q.get? i with
  | none => simp
  | some j =>
    have hjq : j ∈ q := List.get?_mem hqi
    obtain ⟨a, ha⟩ : ∃ a, l.get? j = some a :=
      ⟨l.get ⟨j, hq j hjq⟩, List.get?_eq_get _⟩
    obtain ⟨b, hb⟩ : ∃ b, l'.get? j = some b :=
      ⟨l'.get ⟨j, hq' j hjq⟩, List.get?_eq_get _⟩
    show (l.zip l').get? j =
      (l.get? j).bind fun a => ((l'.get? j).map fun x => (a, x))
    rw [get?_zip_eq, ha, hb]

theorem applyPerm_range (l : List α) :
    applyPerm (List.range l.length) l = l := by
  induction l with
  | nil => rfl
  | cons a as ih =>
    rw [show (a :: as).length = as.length + 1 from rfl, List.range_succ_eq_map]
    show List.filterMap (a :: as).get? (0 :: (List.range as.length).map Nat.succ) = a :: as
    rw [List.filterMap_cons]
    show a :: List.filterMap (a :: as).get? ((List.range as.length).map Nat.succ) = a :: as
    rw [List.filterMap_map]
    rw [show ((a :: as).get? ∘ Nat.succ) = as.get? from funext fun j => rfl]
    rw [show List.filterMap as.get? (List.range as.length) = applyPerm (List.range as.length) as from rfl, ih]

theorem applyPerm_perm (q : List Nat) (l : List α)
    (hperm : q.Perm (List.range l.length)) : (applyPerm q l).Perm l := by
  have h1 : (applyPerm q l).Perm (applyPerm (List.range l.length) l) :=
    hperm.filterMap _
  rw [applyPerm_range l] at h1
  exact h1

/-- What `_prepare_for_flox` guarantees: sorted codes, preserved lengths and
a joint permutation of the (code, value) pairs. -/
theorem prepare_spec (codes : List Int) (data : List α)
    (hlen : codes.length = data.length) :
    (prepare_for_flox codes data).1.Pairwise (· ≤ ·) ∧
      (prepare_for_flox codes data).1.length = codes.length ∧
      (prepare_for_flox codes data).2.1.length = data.length ∧
      ((prepare_for_flox codes data).1.zip (prepare_for_flox codes data).2.1).Perm
        (codes.zip data) := by
  unfold prepare_for_flox
  by_cases h : issorted codes
  · rw [if_pos h]
    refine ⟨?_, rfl, rfl, List.Perm.refl _⟩
    exact List.chain'_iff_pairwise.mp ((issorted_iff codes).mp h)
  · rw [if_neg h]
    have hperm := argsortStable_perm_range codes
    have hq : ∀ j ∈ argsortStable codes, j < codes.length := fun j hj =>
      List.mem_range.mp (hperm.subset hj)
    have hq' : ∀ j ∈ argsortStable codes, j < data.length := fun j hj =>
      hlen ▸ hq j hj
    have hqlen : (argsortStable codes).length = codes.length := by
      simpa using hperm.length_eq
    refine ⟨applyPerm_argsort_pairwise codes, ?_, ?_, ?_⟩
    · show (applyPerm (argsortStable codes) codes).length = codes.length
      rw [applyPerm_length _ _ hq, hqlen]
    · show (applyPerm (argsortStable codes) data).length = data.length
      rw [applyPerm_length _ _ hq', hqlen, hlen]
    show ((applyPerm (argsortStable codes) codes).zip
      (applyPerm (argsortStable codes) data)).Perm (codes.zip data)
    rw [← applyPerm_zip _ _ _ hlen hq]
    apply applyPerm_perm
    rw [List.length_zip, hlen, min_self, ← hlen]
    exact hperm

theorem listMax_uniquesOf (codes : List Int) (hne : codes ≠ []) :
    listMax (uniquesOf codes) = listMax codes := by
  have h1 := listMax_mem (uniquesOf codes) (uniquesOf_ne_nil codes hne)
  have h2 := listMax_mem codes hne
  apply le_antisymm
  · exact le_listMax codes _ ((mem_uniquesOf_iff codes _).mp h1)
  · exact le_listMax (uniquesOf codes) _ ((mem_uniquesOf_iff codes _).mpr h2)

theorem uniquesOf_eq_range (codes : List Int) (size : Nat)
    (hs : codes.Pairwise (· ≤ ·))
    (hrange : ∀ c ∈ codes, 0 ≤ c ∧ c < (size : Int))
    (hcover : ∀ g : Nat, g < size → (g : Int) ∈ codes) :
    uniquesOf codes = (List.range size).map Int.ofNat := by
  have hmsorted : ((List.range size).map Int.ofNat).Pairwise (· < ·) :=
    List.Pairwise.map Int.ofNat
      (fun a b h => by rw [Int.ofNat_eq_coe, Int.ofNat_eq_coe]; omega)
      (List.pairwise_lt_range size)
  have hnodup1 : (uniquesOf codes).Nodup := (uniquesOf_sorted codes hs).imp ne_of_lt
  have hnodup2 : ((List.range size).map Int.ofNat).Nodup := hmsorted.imp ne_of_lt
  have hperm : (uniquesOf codes).Perm ((List.range size).map Int.ofNat) := by
    rw [List.perm_ext_iff_of_nodup hnodup1 hnodup2]
    intro a
    rw [mem_uniquesOf_iff]
    constructor
    · intro ha
      obtain ⟨h0, hlt⟩ := hrange a ha
      refine List.mem_map.mpr ⟨a.toNat, List.mem_range.mpr (by omega), ?_⟩
      rw [Int.ofNat_eq_coe]
      omega
    · intro ha
      obtain ⟨g, hg, rfl⟩ := List.mem_map.mp ha
      exact hcover g (List.mem_range.mp hg)
  exact List.eq_of_perm_of_sorted hperm (uniquesOf_sorted codes hs) hmsorted

theorem foldl_add_eq (xs : List ℚ) (a : ℚ) : xs.foldl (· + ·) a = a + xs.sum := by
  induction xs generalizing a with
  | nil => simp
  | cons y ys ih => rw [List.foldl_cons, ih, List.sum_cons]; ring

theorem segSum_eq_sum (seg : List ℚ) : segSum seg = seg.sum := by
  cases seg with
  | nil => rfl
  | cons x xs =>
    show xs.foldl (· + ·) x = _
    rw [foldl_add_eq, List.sum_cons]

/-- C1: the grouped-sum kernel (sorting pass included) on the two concrete
scenarios of the specification: codes `[0,1,2,0,1,2]` with all-ones data and
size 3 yield `[2,2,2]`; codes `[1,2,3,1,2,3,0,0,0]` with all-ones data and
size 4 yield `[3,2,2,2]`, ordered by label `0,1,2,3`. -/
theorem grouped_sum_concrete_scenarios :
    sumReduce [0, 1, 2, 0, 1, 2] [1, 1, 1, 1, 1, 1] (some 3) 0 = some [2, 2, 2] ∧
    sumReduce [1, 2, 3, 1, 2, 3, 0, 0, 0] [1, 1, 1, 1, 1, 1, 1, 1, 1] (some 4) 0 =
      some [3, 2, 2, 2] := by
  constructor
  · norm_num [sumReduce, withPrepare, sum, prepare_for_flox, issorted, argsortStable,
      applyPerm, np_grouped_op, uniquesOf, invIdxOf, flagOf, chainFlags, maskSelect,
      truePositions, segmentsOf, segSum, reduceSeg, scatterWrite, listMax,
      List.insertionSort, List.orderedInsert, argsortRel, List.enum, List.enumFrom,
      List.filterMap, List.get?, Int.toNat_ofNat, List.take, List.drop, List.foldl]
    decide
  · norm_num [sumReduce, withPrepare, sum, prepare_for_flox, issorted, argsortStable,
      applyPerm, np_grouped_op, uniquesOf, invIdxOf, flagOf, chainFlags, maskSelect,
      truePositions, segmentsOf, segSum, reduceSeg, scatterWrite, listMax,
      List.insertionSort, List.orderedInsert, argsortRel, List.enum, List.enumFrom,
      List.filterMap, List.get?, Int.toNat_ofNat, List.take, List.drop, List.foldl]
    decide

/-- C2 counterexample: at the empty code array with size 0 — which lies in
the claim's domain, since the range conditions are vacuous — the kernel
raises (boolean-mask length mismatch, modelled `none`) instead of producing
an output whose sum is the (zero) input sum. -/
theorem grouped_sum_mass_empty_counterexample :
    ¬ ∃ out : List ℚ, sumReduce [] [] (some 0) 0 = some out ∧
      out.sum = List.sum ([] : List ℚ) := by
  rintro ⟨out, h, -⟩
  rw [show sumReduce [] [] (some 0) (0 : ℚ) = none from rfl] at h
  cases h

/-- C2 (amended: the input must be nonempty, equivalently `size ≥ 1` given
the coverage condition): total mass preservation for the grouped sum. -/
theorem grouped_sum_mass (codes : List Int) (data : List ℚ) (size : Nat) (fill : ℚ)
    (hne : codes ≠ []) (hlen : codes.length = data.length)
    (hrange : ∀ c ∈ codes, 0 ≤ c ∧ c < (size : Int))
    (hcover : ∀ g : Nat, g < size → (g : Int) ∈ codes) :
    ∃ out, sumReduce codes data (some size) fill = some out ∧
      out.sum = data.sum := by
  obtain ⟨hs, hlc, hld, hperm⟩ := prepare_spec codes data hlen
  set c' := (prepare_for_flox codes data).1 with hc'
  set d' := (prepare_for_flox codes data).2.1 with hd'
  have hlc' : c'.length = d'.length := by rw [hlc, hld, hlen]
  have hcperm : c'.Perm codes := by
    have h := hperm.map Prod.fst
    rwa [List.map_fst_zip c' d' (le_of_eq hlc'),
      List.map_fst_zip codes data (le_of_eq hlen)] at h
  have hdperm : d'.Perm data := by
    have h := hperm.map Prod.snd
    rwa [List.map_snd_zip c' d' (ge_of_eq hlc'),
      List.map_snd_zip codes data (ge_of_eq hlen)] at h
  have hne' : c' ≠ [] := by
    intro h
    apply hne
    apply List.eq_nil_of_length_eq_zero
    rw [← hlc, h]
    rfl
  have hrange' : ∀ c ∈ c', 0 ≤ c ∧ c < (size : Int) := fun c hc =>
    hrange c (hcperm.subset hc)
  have hcover' : ∀ g : Nat, g < size → (g : Int) ∈ c' := fun g hg =>
    hcperm.mem_iff.mpr (hcover g hg)
  have hguard := uniquesOf_eq_range c' size hs hrange' hcover'
  show ∃ out, np_grouped_op segSum c' d' (some size) fill = some out ∧
    out.sum = data.sum
  rw [np_grouped_op_eq segSum c' d' size fill hne']
  have hguardlen : (uniquesOf c').length = size := by rw [hguard]; simp
  rw [if_pos (And.intro hguardlen hguard)]
  refine ⟨_, rfl, ?_⟩
  rw [List.map_congr_left (fun seg _ => segSum_eq_sum seg), ← List.sum_flatten,
    segmentsOf_eq_runs_snd c' d' hlc', runs_snd_flatten c' d' hlc']
  exact hdperm.sum_eq

/-- C8 counterexample: on the empty input the kernel raises — the
boolean-mask flag has length 1 against an empty array (line 183-184),
modelled `none` — so the result is not the fill_value-filled vector. -/
theorem empty_input_counterexample :
    ¬ (np_grouped_op segSum [] [] (some 2) (7 : ℚ) = some [7, 7]) := by
  intro h
  rw [show np_grouped_op segSum [] [] (some 2) (7 : ℚ) = none from rfl] at h
  cases h

/-- C8 (amended): for every reduction, empty input raises an indexing error
(modelled `none`) for every requested size — no fill_value output is
produced; likewise with the sorting pass in front. -/
theorem empty_input_errors {α : Type} (segOp : List α → α) (size : Nat) (fill : α) :
    np_grouped_op segOp [] [] (some size) fill = none ∧
      withPrepare (np_grouped_op segOp) [] [] (some size) fill = none :=
  ⟨rfl, rfl⟩

/-- C9: when `size` is omitted, the kernel infers the output length as
`max(codes) + 1` from the sorted codes, and any group in that range absent
from the codes is left at `fill_value`. -/
theorem size_none_infers_max_plus_one {α : Type} (segOp : List α → α)
    (codes : List Int) (data : List α) (fill : α)
    (hne : codes ≠ []) (hlen : codes.length = data.length)
    (hs : codes.Pairwise (· ≤ ·)) (hpos : ∀ c ∈ codes, 0 ≤ c) :
    ∃ out, np_grouped_op segOp codes data none fill = some out ∧
      out.length = (listMax codes + 1).toNat ∧
      ∀ g : Nat, g < out.length → (g : Int) ∉ codes → out.get? g = some fill := by
  rw [np_grouped_op_none, listMax_uniquesOf codes hne]
  have h0max : 0 ≤ listMax codes :=
    le_trans (hpos _ (listMax_mem codes hne)) (le_refl _)
  have hrange : ∀ c ∈ codes, 0 ≤ c ∧ c < (((listMax codes + 1).toNat : Nat) : Int) := by
    intro c hc
    have h1 := hpos c hc
    have h2 := le_listMax codes c hc
    constructor
    · exact h1
    · rw [Int.toNat_of_nonneg (by omega)]
      omega
  obtain ⟨out, h1, h2, h3⟩ :=
    np_grouped_op_char segOp codes data ((listMax codes + 1).toNat) fill hne hlen hs hrange
  refine ⟨out, h1, h2, ?_⟩
  intro g hg hgmem
  rw [h3 g (by omega), if_neg hgmem]

/-- C2 witness at a concrete input. -/
theorem grouped_sum_mass_witness :
    ∃ out, sumReduce [1, 0] [2, 3] (some 2) 9 = some out ∧
      out.sum = List.sum [(2 : ℚ), 3] :=
  grouped_sum_mass [1, 0] [2, 3] 2 9 (by decide) rfl (by decide) (by decide)

/-- C9 witness at a concrete input. -/
theorem size_none_witness :
    ∃ out, np_grouped_op segSum [0, 0, 2] [1, 2, 3] none (5 : ℚ) = some out ∧
      out.length = (listMax [0, 0, 2] + 1).toNat ∧
      ∀ g : Nat, g < out.length → (g : Int) ∉ [(0 : Int), 0, 2] →
        out.get? g = some 5 :=
  size_none_infers_max_plus_one segSum [0, 0, 2] [1, 2, 3] 5 (by decide) rfl
    (by decide) (by decide)

theorem segments_length_eq_uniques (codes : List Int) (data : List α)
    (hlen : codes.length = data.length) :
    (segmentsOf (invIdxOf codes) data.length data).length = (uniquesOf codes).length := by
  rw [segmentsOf_eq_runs_snd codes data hlen, uniquesOf_eq_runs_fst codes data]
  simp

theorem range_map_ofNat_sorted (size : Nat) :
    ((List.range size).map Int.ofNat).Pairwise (· < ·) :=
  List.Pairwise.map Int.ofNat
    (fun a b h => by rw [Int.ofNat_eq_coe, Int.ofNat_eq_coe]; omega)
    (List.pairwise_lt_range size)

/-- C4: whenever the guarded branch applies — sorted in-range codes whose
distinct values are exactly `0..size-1` — the direct-write fast path and the
fill-then-scatter path produce identical outputs. -/
theorem fast_and_scatter_paths_agree {α : Type} (segOp : List α → α)
    (codes : List Int) (data : List α) (size : Nat) (fill : α)
    (hlen : codes.length = data.length)
    (hs : codes.Pairwise (· ≤ ·))
    (hrange : ∀ c ∈ codes, 0 ≤ c ∧ c < (size : Int))
    (hguard : uniquesOf codes = (List.range size).map Int.ofNat) :
    scatterPathResult segOp codes data size fill =
      some (fastPathResult segOp codes data size fill) := by
  have hulen : (uniquesOf codes).length = size := by rw [hguard]; simp
  have hreslen : ((segmentsOf (invIdxOf codes) data.length data).map segOp).length =
      size := by
    rw [List.length_map, segments_length_eq_uniques codes data hlen, hulen]
  have hnodup : (uniquesOf codes).Nodup := by
    rw [hguard]
    exact (range_map_ofNat_sorted size).imp ne_of_lt
  have hbounds : ∀ t ∈ uniquesOf codes,
      0 ≤ t ∧ t < ((List.replicate size fill).length : Int) := by
    intro t ht
    rw [hguard] at ht
    obtain ⟨gq, hgq, rfl⟩ := List.mem_map.mp ht
    rw [List.length_replicate, Int.ofNat_eq_coe]
    have := List.mem_range.mp hgq
    omega
  obtain ⟨out, h1, h2, h3, h4⟩ := scatterWrite_spec (uniquesOf codes)
    ((segmentsOf (invIdxOf codes) data.length data).map segOp)
    (List.replicate size fill) (by rw [hreslen, hulen]) hbounds hnodup
  rw [show scatterPathResult segOp codes data size fill =
    scatterWrite (List.replicate size fill) (uniquesOf codes)
      ((segmentsOf (invIdxOf codes) data.length data).map segOp) from rfl, h1]
  congr 1
  apply List.ext_get?
  intro p
  by_cases hp : p < size
  · have hj : p < (uniquesOf codes).length := by omega
    have hv : p < ((segmentsOf (invIdxOf codes) data.length data).map segOp).length := by
      omega
    have hup : ((uniquesOf codes).get ⟨p, hj⟩).toNat = p := by
      have : (uniquesOf codes).get? p = some (Int.ofNat p) := by
        rw [hguard, List.get?_eq_getElem?, List.getElem?_map, List.getElem?_range hp]
        rfl
      rw [List.get?_eq_get hj] at this
      have h5 : (uniquesOf codes).get ⟨p, hj⟩ = Int.ofNat p := by
        injection this
      rw [h5, Int.ofNat_eq_coe, Int.toNat_natCast]
    have h6 := h4 p hj hv
    rw [hup] at h6
    rw [h6]
    show _ = (fastPathResult segOp codes data size fill).get? p
    unfold fastPathResult
    rw [List.get?_append (by simpa using hv), List.get?_eq_get hv]
  · have hlen1 : out.length = size := by rw [h2, List.length_replicate]
    have hlen2 : (fastPathResult segOp codes data size fill).length = size := by
      unfold fastPathResult
      rw [List.length_append, List.length_drop, List.length_replicate, hreslen]
      omega
    rw [List.get?_eq_none.mpr (by omega), List.get?_eq_none.mpr (by omega)]

/-- C4 witness at a concrete input. -/
theorem fast_scatter_witness :
    scatterPathResult segSum [0, 0, 1] [1, 2, 3] 2 (9 : ℚ) =
      some (fastPathResult segSum [0, 0, 1] [1, 2, 3] 2 9) :=
  fast_and_scatter_paths_agree segSum [0, 0, 1] [1, 2, 3] 2 9 rfl (by decide)
    (by decide) (by decide)

/-! ### The nan-variants on all-missing groups -/

theorem foldl_const {α : Type} (op : α → α → α) (a : α) (hop : op a a = a) :
    ∀ xs : List α, (∀ x ∈ xs, x = a) → xs.foldl op a = a := by
  intro xs
  induction xs with
  | nil => intro _; rfl
  | cons y ys ih =>
    intro h
    rw [List.foldl_cons, h y (List.mem_cons_self _ _), hop]
    exact ih (fun x hx => h x (List.mem_cons_of_mem _ hx))

theorem reduceSeg_const {α : Type} (op : α → α → α) (dflt a : α) (hop : op a a = a)
    (l : List α) (hl : ∀ x ∈ l, x = a) (hne : l ≠ []) : reduceSeg op dflt l = a := by
  cases l with
  | nil => exact absurd rfl hne
  | cons x xs =>
    show xs.foldl op x = a
    rw [hl x (List.mem_cons_self _ _)]
    exact foldl_const op a hop xs (fun y hy => hl y (List.mem_cons_of_mem _ hy))

theorem groupVals_ne_nil {α : Type} (codes : List Int) (d : List α) (g : Int)
    (hlen : codes.length = d.length) (hg : g ∈ codes) :
    ((codes.zip d).filter (fun q => q.1 == g)).map Prod.snd ≠ [] := by
  obtain ⟨⟨i, hi⟩, hgi⟩ := List.mem_iff_get.mp hg
  have h1 : codes.get? i = some g := by rw [List.get?_eq_get hi, hgi]
  have hdlt : i < d.length := by rw [← hlen]; exact hi
  obtain ⟨v, hv⟩ : ∃ v, d.get? i = some v := ⟨d.get ⟨i, hdlt⟩, List.get?_eq_get hdlt⟩
  have hz : (codes.zip d).get? i = some (g, v) := by
    rw [get?_zip_eq, h1, hv]
    rfl
  have hmem : (g, v) ∈ codes.zip d := List.get?_mem hz
  have hmemf : (g, v) ∈ (codes.zip d).filter (fun q => q.1 == g) :=
    List.mem_filter.mpr ⟨hmem, by simp⟩
  exact List.ne_nil_of_mem (List.mem_map_of_mem Prod.snd hmemf)

/-- On a present, all-missing group, an identity-filled grouped reduceat
returns the identity. -/
theorem nan_op_group_const {α : Type} (op : α → α → α) (junk ident : α)
    (hop : op ident ident = ident)
    (codes : List Int) (data : List (Option α)) (size : Nat) (g : Nat) (fill : α)
    (hlen : codes.length = data.length) (hs : codes.Pairwise (· ≤ ·))
    (hrange : ∀ c ∈ codes, 0 ≤ c ∧ c < (size : Int))
    (hg : (g : Int) ∈ codes)
    (hmiss : ∀ p ∈ codes.zip data, p.1 = (g : Int) → p.2 = none) :
    ∃ out, np_grouped_op (reduceSeg op junk) codes
        (data.map (fun o => o.getD ident)) (some size) fill = some out ∧
      out.get? g = some ident := by
  have hne : codes ≠ [] := List.ne_nil_of_mem hg
  have hlen' : codes.length = (data.map (fun o => o.getD ident)).length := by
    rw [List.length_map]; exact hlen
  obtain ⟨out, h1, h2, h3⟩ := np_grouped_op_char (reduceSeg op junk) codes
    (data.map (fun o => o.getD ident)) size fill hne hlen' hs hrange
  refine ⟨out, h1, ?_⟩
  have hglt : g < size := by
    have := (hrange _ hg).2
    omega
  rw [h3 g hglt, if_pos hg]
  congr 1
  apply reduceSeg_const op junk ident hop
  · intro x hx
    rw [List.zip_map_right, List.filter_map, List.map_map] at hx
    obtain ⟨q, hq, rfl⟩ := List.mem_map.mp hx
    have hqZ := (List.mem_filter.mp hq).1
    have hqg : q.1 = (g : Int) := by
      have := (List.mem_filter.mp hq).2
      simpa using this
    have hnone := hmiss q hqZ hqg
    show (Prod.map id (fun o => o.getD ident) q).2 = ident
    rw [Prod.map_snd, hnone]
    rfl
  · exact groupVals_ne_nil codes (data.map (fun o => o.getD ident)) (g : Int) hlen' hg

theorem nan_grouped_op_false {α : Type} [DecidableEq α]
    (func : List Int → List α → Option Nat → α → Option (List α))
    (fillna : α) (codes : List Int) (data : List (Option α)) (size? : Option Nat)
    (fill : α) :
    nan_grouped_op func fillna false codes data size? fill =
      func codes (data.map fun o => o.getD fillna) size? fill := by
  unfold nan_grouped_op
  cases h : func codes (data.map fun o => o.getD fillna) size? fill <;> simp [h]

theorem nan_grouped_op_true {α : Type} [DecidableEq α]
    (func : List Int → List α → Option Nat → α → Option (List α))
    (fillna : α) (codes : List Int) (data : List (Option α)) (size? : Option Nat)
    (fill : α) :
    nan_grouped_op func fillna true codes data size? fill =
      (func codes (data.map fun o => o.getD fillna) size? fill).map
        (fun res => res.map fun x => if x = fillna then fill else x) := by
  unfold nan_grouped_op
  simp

/-- C3 counterexample: `nansum` over a single present, all-missing group
returns the identity 0, not the requested `fill_value` 5 — all-missing is
not distinguishable from a true zero sum. -/
theorem nansum_allmissing_counterexample :
    nansum [0] [none] (some 1) (5 : ℚ) = some [0] ∧ (0 : ℚ) ≠ 5 := by
  constructor
  · rfl
  · norm_num

/-- C3 (amended): every nan-variant first replaces missing values by its
operator's identity; on a present all-missing group, nanmin/nanmax — whose
`fillna` sentinel is `±inf`, the only case line 223 replaces — substitute
`fill_value`, while nansum/nanprod return the identities 0 resp. 1
(matching `np.nansum`/`np.nanprod`), so only min/max distinguish the
all-missing group from a group whose true result equals the identity. -/
theorem nan_ops_allmissing (codes : List Int) (size : Nat) (g : Nat)
    (dq : List (Option ℚ)) (dx : List (Option XRat)) (fillq : ℚ) (fillx : XRat)
    (hlenq : codes.length = dq.length) (hlenx : codes.length = dx.length)
    (hs : codes.Pairwise (· ≤ ·)) (hrange : ∀ c ∈ codes, 0 ≤ c ∧ c < (size : Int))
    (hg : (g : Int) ∈ codes)
    (hmissq : ∀ p ∈ codes.zip dq, p.1 = (g : Int) → p.2 = none)
    (hmissx : ∀ p ∈ codes.zip dx, p.1 = (g : Int) → p.2 = none) :
    (∃ out, nansum codes dq (some size) fillq = some out ∧ out.get? g = some 0) ∧
    (∃ out, nanprod codes dq (some size) fillq = some out ∧ out.get? g = some 1) ∧
    (∃ out, nanmax codes dx (some size) fillx = some out ∧ out.get? g = some fillx) ∧
    (∃ out, nanmin codes dx (some size) fillx = some out ∧ out.get? g = some fillx) := by
  refine ⟨?_, ?_, ?_, ?_⟩
  · obtain ⟨out, h1, h2⟩ := nan_op_group_const (· + ·) 0 0 (by norm_num) codes dq size
      g fillq hlenq hs hrange hg hmissq
    refine ⟨out, ?_, h2⟩
    rw [show nansum codes dq (some size) fillq =
      nan_grouped_op sum 0 false codes dq (some size) fillq from rfl,
      nan_grouped_op_false]
    exact h1
  · obtain ⟨out, h1, h2⟩ := nan_op_group_const (· * ·) 1 1 (by norm_num) codes dq size
      g fillq hlenq hs hrange hg hmissq
    refine ⟨out, ?_, h2⟩
    rw [show nanprod codes dq (some size) fillq =
      nan_grouped_op prod 1 false codes dq (some size) fillq from rfl,
      nan_grouped_op_false]
    exact h1
  · obtain ⟨out, h1, h2⟩ := nan_op_group_const Max.max (⊥ : XRat) ⊥ (max_self _) codes
      dx size g fillx hlenx hs hrange hg hmissx
    refine ⟨out.map (fun x => if x = (⊥ : XRat) then fillx else x), ?_, ?_⟩
    · rw [show nanmax codes dx (some size) fillx =
        nan_grouped_op (maxOp ⊥) ⊥ true codes dx (some size) fillx from rfl,
        nan_grouped_op_true]
      rw [show maxOp (⊥ : XRat) codes (dx.map fun o => o.getD ⊥) (some size) fillx =
        np_grouped_op (reduceSeg Max.max ⊥) codes (dx.map fun o => o.getD ⊥)
          (some size) fillx from rfl, h1]
      rfl
    · rw [List.get?_eq_getElem?, List.getElem?_map, ← List.get?_eq_getElem?, h2]
      simp
  · obtain ⟨out, h1, h2⟩ := nan_op_group_const Min.min (⊤ : XRat) ⊤ (min_self _) codes
      dx size g fillx hlenx hs hrange hg hmissx
    refine ⟨out.map (fun x => if x = (⊤ : XRat) then fillx else x), ?_, ?_⟩
    · rw [show nanmin codes dx (some size) fillx =
        nan_grouped_op (minOp ⊤) ⊤ true codes dx (some size) fillx from rfl,
        nan_grouped_op_true]
      rw [show minOp (⊤ : XRat) codes (dx.map fun o => o.getD ⊤) (some size) fillx =
        np_grouped_op (reduceSeg Min.min ⊤) codes (dx.map fun o => o.getD ⊤)
          (some size) fillx from rfl, h1]
      rfl
    · rw [List.get?_eq_getElem?, List.getElem?_map, ← List.get?_eq_getElem?, h2]
      simp

/-- C3 witness at a concrete input: group 1 of codes `[0,1]` is all-missing. -/
theorem nan_ops_allmissing_witness :
    ((∃ out, nansum [0, 1] [some 3, none] (some 2) (7 : ℚ) = some out ∧
        out.get? 1 = some 0) ∧
      (∃ out, nanprod [0, 1] [some 3, none] (some 2) (7 : ℚ) = some out ∧
        out.get? 1 = some 1) ∧
      (∃ out, nanmax [0, 1] [some 2, none] (some 2) (⊤ : XRat) = some out ∧
        out.get? 1 = some ⊤) ∧
      (∃ out, nanmin [0, 1] [some 2, none] (some 2) (⊤ : XRat) = some out ∧
        out.get? 1 = some ⊤)) :=
  nan_ops_allmissing [0, 1] 2 1 [some 3, none] [some 2, none] 7 ⊤ rfl rfl
    (by decide) (by decide) (by decide) (by decide) (by decide)

theorem get?_zipWith_bind (f : α → β → γ) (l₁ : List α) (l₂ : List β) (i : Nat) :
    (List.zipWith f l₁ l₂).get? i =
      (l₁.get? i).bind fun a => (l₂.get? i).map fun b => f a b := by
  rw [List.get?_zipWith']
  cases l₁.get? i <;> simp

theorem segmentsOf_length (inv : List Nat) (stop : Nat) (d : List α) :
    (segmentsOf inv stop d).length = inv.length := by
  unfold segmentsOf
  rw [List.length_map, List.length_zip, List.length_append, List.length_tail]
  cases inv <;> simp

theorem segLens_length (inv : List Nat) (n : Nat) :
    (segLens inv n).length = inv.length := by
  unfold segLens
  rw [List.length_zipWith, List.length_tail, List.length_append]
  simp

theorem nanmaskOf_length (array : List (Option ℚ)) (invIdx : List Nat) :
    (nanmaskOf array invIdx).length = invIdx.length := by
  unfold nanmaskOf
  rw [List.length_zipWith, segLens_length, List.length_map, segmentsOf_length]
  exact min_self _

/-- C5: for one group with values `[NaN, 5, 3]`, the grouped quantile at
`q = 1/2` returns `4` when missing values are skipped (nanquantile,
`skipna = true`) and `fill_value` when they are not (quantile,
`skipna = false`); and in general with `skipna = false` every group flagged
in `nanmask` (it contains at least one missing value) has its quantile
output forced to `fill_value` regardless of the selection outcome
(lines 155-156). -/
theorem quantile_missing_forced :
    (nanquantileReduce [0, 0, 0] [none, some 5, some 3] (1 / 2) (some 1) ⊥ =
        some [[((4 : ℚ) : QB)]]) ∧
    (∀ fill : QB,
      quantileReduce [0, 0, 0] [none, some 5, some 3] (1 / 2) (some 1) fill =
        some [[fill]]) ∧
    (∀ (array : List (Option ℚ)) (invIdx : List Nat) (qv : ℚ) (codes : List Int)
        (fill : QB) (gi : Nat),
      (nanmaskOf array invIdx).get? gi = some true →
      ((quantile_or_topk array invIdx (some qv) none false codes fill).headD
          []).get? gi = some fill) := by
  have hprep : prepare_for_flox ([0, 0, 0] : List Int)
      ([none, some 5, some 3] : List (Option ℚ)) =
      ([0, 0, 0], [none, some 5, some 3], none) := by
    unfold prepare_for_flox
    rw [if_pos (by decide)]
  have hmask : nanmaskOf [none, some 5, some 3] [0] = [true] := by decide
  have hcount : countSome (List.drop 0 (List.take
      ([none, some 5, some 3] : List (Option ℚ)).length [none, some 5, some 3])) = 2 := by
    decide
  have huniq : uniquesOf [0, 0, 0] = [0] := by decide
  have heq : List.map Int.ofNat (List.range 1) = [0] := by decide
  have hinv : invIdxOf [0, 0, 0] = [0] := by decide
  refine ⟨?_, ?_, ?_⟩
  · have hsorted : sortedVals [0, 0, 0] (replacedArray [none, some 5, some 3] [0]) =
        [((3 : ℚ) : QB), ((5 : ℚ) : QB), ((5 : ℚ) : QB)] := by decide
    have hrows : quantile_or_topk [none, some 5, some 3] [0] (some ((1 : ℚ) / 2)) none true
        [0, 0, 0] ⊥ = [[((4 : ℚ) : QB)]] := by
      simp only [quantile_or_topk, hmask, hsorted, List.zipWith, List.map, hcount,
        not_true, false_and, if_false]
      norm_num
      have hceil2 : (⌈(1 : ℚ) / 2⌉ : ℤ) = 1 := by
        rw [Int.ceil_eq_iff]
        norm_num
      rw [hceil2]
      norm_num [takeIdx, lerp, bsub, bscale, badd, List.get]
      rfl
    simp only [nanquantileReduce, hprep, np_grouped_op_rows, huniq, hinv, heq]
    norm_num [hrows]
    intro h
    exact absurd heq.symm h
  · intro fill
    have hrows2 : quantile_or_topk [none, some 5, some 3] [0] (some ((1 : ℚ) / 2)) none false
        [0, 0, 0] fill = [[fill]] := by
      simp only [quantile_or_topk, hmask, List.zipWith, List.map, hcount]
      norm_num
    simp only [quantileReduce, hprep, np_grouped_op_rows, huniq, hinv, heq]
    norm_num [hrows2]
    intro h
    exact absurd heq.symm h
  · intro array invIdx qv codes fill gi hmaskg
    have hmem : true ∈ nanmaskOf array invIdx := List.get?_mem hmaskg
    have hany : (nanmaskOf array invIdx).any id = true :=
      List.any_eq_true.mpr ⟨true, hmem, rfl⟩
    have hlt : gi < (nanmaskOf array invIdx).length := by
      by_contra h
      rw [List.get?_eq_none.mpr (by omega)] at hmaskg
      cases hmaskg
    rw [nanmaskOf_length] at hlt
    simp only [quantile_or_topk]
    rw [if_pos ⟨by simp, hany⟩]
    simp only [List.headD_cons]
    rw [get?_zipWith_bind, hmaskg]
    simp only [Option.some_bind, if_true]
    generalize hR : List.zipWith _ _ _ = R
    cases hRg : R.get? gi with
    | none =>
      exfalso
      have hnone := List.get?_eq_none.mp hRg
      rw [← hR] at hnone
      simp only [List.length_zipWith, List.length_map, segmentsOf_length,
        min_self] at hnone
      omega
    | some x => simp

/-- Witness for `quantile_missing_forced`: the general conjunct applied to a
concrete flagged group. -/
theorem quantile_missing_forced_witness :
    (nanmaskOf [none, some 1] [0]).get? 0 = some true ∧
    ((quantile_or_topk [none, some 1] [0] (some ((1 : ℚ) / 2)) none false
        [0, 0] ⊥).headD []).get? 0 = some ⊥ :=
  ⟨by decide,
    quantile_missing_forced.2.2 [none, some 1] [0] ((1 : ℚ) / 2) [0, 0] ⊥ 0 (by decide)⟩

/-- C6 evaluation backing the code-bug verdict: the embedded top-k kernel on
codes `[0,0,0,1]`, data `[10,20,30,5]`, `k = 2`, `size = 2`.  Group 1 has one
member, fewer than `k = 2`, so by the claim its missing rank should yield
`fill_value` (`⊥` here); instead the `badmask = lo_ < 0` test (line 151)
flags nothing — the rank is only below the group run start, not below 0 —
and row 0 of group 1 reads `30`, a value belonging to group 0. -/
theorem topk_small_group_leak :
    topkReduce [0, 0, 0, 1] [some 10, some 20, some 30, some 5] 2 (some 2) ⊥ =
      some [[((20 : ℚ) : QB), ((30 : ℚ) : QB)],
        [((30 : ℚ) : QB), ((5 : ℚ) : QB)]] := by
  decide


theorem set_replicate_false : ∀ (n p : Nat),
    (List.replicate n false).set p false = List.replicate n false := by
  intro n
  induction n with
  | zero => intro p; rfl
  | succ m ih =>
    intro p
    cases p with
    | zero => simp [List.replicate]
    | succ p =>
      rw [List.replicate_succ, List.set_cons_succ, ih p]

theorem setFalseAt_replicate : ∀ (ps : List Nat) (n : Nat),
    setFalseAt (List.replicate n false) ps = List.replicate n false := by
  intro ps
  induction ps with
  | nil => intro n; rfl
  | cons p ps ih =>
    intro n
    show setFalseAt ((List.replicate n false).set p false) ps = _
    rw [set_replicate_false, ih]

theorem map_isNone_eq_replicate (l : List (Option α)) (h : ∀ x ∈ l, x ≠ none) :
    l.map Option.isNone = List.replicate l.length false := by
  induction l with
  | nil => rfl
  | cons x xs ih =>
    rw [List.map_cons, List.length_cons, List.replicate_succ,
      ih (fun y hy => h y (List.mem_cons_of_mem _ hy))]
    cases x with
    | none => exact absurd rfl (h none (List.mem_cons_self _ _))
    | some a => rfl

theorem zipWith_if_false : ∀ (l : List Nat) (m : Nat), l.length = m →
    List.zipWith (fun b i => if b then 0 else i) (List.replicate m false) l = l := by
  intro l
  induction l with
  | nil => intro m _; simp
  | cons x xs ih =>
    intro m hm
    cases m with
    | zero => simp at hm
    | succ k =>
      rw [List.replicate_succ, List.zipWith_cons_cons, ih k (by simpa using hm)]
      rfl

theorem cummaxAux_chain : ∀ (l : List Nat) (a : Nat),
    List.Chain (· ≤ ·) a l → cummaxAux a l = l := by
  intro l
  induction l with
  | nil => intro a _; rfl
  | cons x xs ih =>
    intro a hc
    rcases List.chain_cons.mp hc with ⟨hax, hxs⟩
    show Max.max a x :: cummaxAux (Max.max a x) xs = x :: xs
    rw [max_eq_right hax, ih x hxs]

theorem cummax_chain' (l : List Nat) (h : l.Chain' (· ≤ ·)) : cummax l = l := by
  cases l with
  | nil => rfl
  | cons x xs =>
    show x :: cummaxAux x xs = x :: xs
    rw [cummaxAux_chain xs x h]

theorem chain'_le_range (n : Nat) : (List.range n).Chain' (· ≤ ·) :=
  List.chain'_iff_pairwise.mpr ((List.pairwise_lt_range n).imp le_of_lt)

theorem map_getD_range (l : List α) (d : α) :
    (List.range l.length).map (fun j => l.getD j d) = l := by
  induction l with
  | nil => rfl
  | cons x xs ih =>
    rw [show (x :: xs).length = xs.length + 1 from rfl, List.range_succ_eq_map,
      List.map_cons, List.map_map]
    show x :: (List.range xs.length).map (fun j => xs.getD j d) = x :: xs
    rw [ih]

theorem mem_of_applyPerm (q : List Nat) (l : List α) (x : α)
    (hx : x ∈ applyPerm q l) : x ∈ l := by
  obtain ⟨j, _, hj⟩ := List.mem_filterMap.mp hx
  exact List.get?_mem hj

theorem argsort_inv_get (perm : List Nat)
    (hperm : perm.Perm (List.range perm.length)) (i : Nat)
    (hi : i < perm.length) :
    ∃ j, (argsortStable (perm.map Int.ofNat)).get? i = some j ∧
      perm.get? j = some i := by
  have hsndperm : ((List.insertionSort argsortRel (perm.map Int.ofNat).enum).map
      Prod.snd).Perm (perm.map Int.ofNat) := by
    have h := (List.perm_insertionSort argsortRel (perm.map Int.ofNat).enum).map Prod.snd
    rw [List.enum_map_snd] at h
    exact h
  have hplperm : (perm.map Int.ofNat).Perm ((List.range perm.length).map Int.ofNat) :=
    hperm.map _
  have hsnd_sorted : ((List.insertionSort argsortRel (perm.map Int.ofNat).enum).map
      Prod.snd).Pairwise (· ≤ ·) := by
    refine List.Pairwise.map Prod.snd ?_
      (List.sorted_insertionSort argsortRel (perm.map Int.ofNat).enum)
    intro a b hab
    unfold argsortRel at hab
    omega
  have htarget_sorted : ((List.range perm.length).map Int.ofNat).Pairwise (· ≤ ·) :=
    (range_map_ofNat_sorted perm.length).imp le_of_lt
  have hsndeq : (List.insertionSort argsortRel (perm.map Int.ofNat).enum).map
      Prod.snd = (List.range perm.length).map Int.ofNat :=
    List.eq_of_perm_of_sorted (hsndperm.trans hplperm) hsnd_sorted htarget_sorted
  have heplen : (List.insertionSort argsortRel (perm.map Int.ofNat).enum).length =
      perm.length := by
    rw [(List.perm_insertionSort argsortRel (perm.map Int.ofNat).enum).length_eq]
    rw [List.enum_length, List.length_map]
  obtain ⟨pr, hpr⟩ : ∃ pr,
      (List.insertionSort argsortRel (perm.map Int.ofNat).enum).get? i = some pr :=
    ⟨_, List.get?_eq_get (by omega)⟩
  have h1 : ((List.insertionSort argsortRel (perm.map Int.ofNat).enum).map
      Prod.snd).get? i = some pr.2 := by
    rw [List.get?_map, hpr]
    rfl
  have h2 : (((List.range perm.length).map Int.ofNat)).get? i = some (Int.ofNat i) := by
    rw [List.get?_map, List.get?_range hi]
    rfl
  have hsnd : pr.2 = Int.ofNat i := by
    rw [hsndeq, h2] at h1
    exact (Option.some_inj.mp h1).symm
  have hmem : pr ∈ (perm.map Int.ofNat).enum :=
    (List.perm_insertionSort argsortRel _).mem_iff.mp (List.get?_mem hpr)
  have hpl : (perm.map Int.ofNat).get? pr.1 = some pr.2 :=
    List.mem_enum_iff_get?.mp hmem
  rw [List.get?_map] at hpl
  refine ⟨pr.1, ?_, ?_⟩
  · show ((List.insertionSort argsortRel (perm.map Int.ofNat).enum).map
      Prod.fst).get? i = some pr.1
    rw [List.get?_map, hpr]
    rfl
  · cases hpk : perm.get? pr.1 with
    | none => rw [hpk] at hpl; cases hpl
    | some k =>
      rw [hpk] at hpl
      have : Int.ofNat k = pr.2 := Option.some_inj.mp hpl
      rw [hsnd] at this
      have hk : k = i := by
        rw [Int.ofNat_eq_coe, Int.ofNat_eq_coe] at this
        omega
      rw [hk]

theorem applyPerm_argsort_inverse (perm : List Nat) (l : List α)
    (hperm : perm.Perm (List.range l.length)) :
    applyPerm (argsortStable (perm.map Int.ofNat)) (applyPerm perm l) = l := by
  have hplen : perm.length = l.length := by
    rw [hperm.length_eq, List.length_range]
  have hql : ∀ j ∈ perm, j < l.length := fun j hj =>
    List.mem_range.mp (hperm.subset hj)
  have harrlen : (applyPerm perm l).length = l.length := by
    rw [applyPerm_length perm l hql, hplen]
  have hinvperm : (argsortStable (perm.map Int.ofNat)).Perm
      (List.range perm.length) := by
    have h := argsortStable_perm_range (perm.map Int.ofNat)
    rwa [List.length_map] at h
  have hinvmem : ∀ j ∈ argsortStable (perm.map Int.ofNat),
      j < (applyPerm perm l).length := by
    intro j hj
    rw [harrlen, ← hplen]
    exact List.mem_range.mp (hinvperm.subset hj)
  apply List.ext_get?
  intro i
  rw [applyPerm_get? _ _ hinvmem i]
  by_cases hi : i < l.length
  · obtain ⟨j, hj1, hj2⟩ := argsort_inv_get perm
      (by rw [hplen]; exact hperm) i (by omega)
    rw [hj1]
    simp only [Option.some_bind]
    rw [applyPerm_get? perm l hql j, hj2]
    rfl
  · have h1 : (argsortStable (perm.map Int.ofNat)).get? i = none := by
      apply List.get?_eq_none.mpr
      rw [hinvperm.length_eq, List.length_range]
      omega
    have h2 : l.get? i = none := List.get?_eq_none.mpr (by omega)
    rw [h1, h2]
    rfl

/-- Counterexample to the unamended C10: the empty input has no missing
values and the original claim admits it, yet `ffill` raises there (modelled
`none`) instead of returning its input — the flag of line 296 keeps length 1
on empty codes, so `group_starts = [0]` and the mask reset of line 302
indexes out of bounds on the size-0 axis. -/
theorem ffill_empty_counterexample :
    (∀ x ∈ ([] : List (Option ℚ)), x ≠ none) ∧
    ffill ([] : List Int) ([] : List (Option ℚ)) = none ∧
    ffill ([] : List Int) ([] : List (Option ℚ)) ≠
      some ([] : List (Option ℚ)) := by
  refine ⟨fun x hx => absurd hx (List.not_mem_nil x), rfl, fun h => Option.noConfusion h⟩

/-- C10 (amended to nonempty input): grouped forward-fill on a nonempty
input with no missing values returns the input unchanged, for any group-code
assignment (unsorted codes included: the sort permutation is inverted on
return, lines 312-313); the empty input instead raises, see
`ffill_empty_counterexample`. -/
theorem ffill_no_missing (codes : List Int) (data : List (Option ℚ))
    (hne : codes ≠ [])
    (hlen : codes.length = data.length)
    (hnm : ∀ x ∈ data, x ≠ none) :
    ffill codes data = some data := by
  have gather_eq : ∀ (arr : List (Option ℚ)) (gs : List Nat),
      (∀ x ∈ arr, x ≠ none) →
      (cummax (List.zipWith (fun b i => if b then 0 else i)
          (setFalseAt (arr.map Option.isNone) gs) (List.range arr.length))).map
        (fun j => arr.getD j none) = arr := by
    intro arr gs h
    rw [map_isNone_eq_replicate arr h, setFalseAt_replicate,
      zipWith_if_false _ _ (by rw [List.length_range]),
      cummax_chain' _ (chain'_le_range _), map_getD_range]
  unfold ffill
  rw [if_neg (by simpa using hne)]
  by_cases hs : issorted codes
  · simp only [prepare_for_flox, if_pos hs]
    exact congrArg some (gather_eq data _ hnm)
  · simp only [prepare_for_flox, if_neg hs]
    have harrmem : ∀ x ∈ applyPerm (argsortStable codes) data, x ≠ none :=
      fun x hx => hnm x (mem_of_applyPerm _ _ x hx)
    rw [gather_eq _ _ harrmem]
    refine congrArg some ?_
    apply applyPerm_argsort_inverse
    rw [← hlen]
    exact argsortStable_perm_range codes

/-- Witness for `ffill_no_missing`: unsorted nonempty codes, fully present
data. -/
theorem ffill_no_missing_witness :
    (([1, 0, 1, 0] : List Int) ≠ []) ∧
    (([1, 0, 1, 0] : List Int).length =
        ([some 4, some 5, some 6, some 7] : List (Option ℚ)).length) ∧
    (∀ x ∈ ([some 4, some 5, some 6, some 7] : List (Option ℚ)), x ≠ none) ∧
    ffill [1, 0, 1, 0] [some 4, some 5, some 6, some 7] =
      some [some 4, some 5, some 6, some 7] :=
  ⟨by decide, by decide, by decide,
    ffill_no_missing [1, 0, 1, 0] [some 4, some 5, some 6, some 7]
      (by decide) (by decide) (by decide)⟩

theorem optOp_rcomm (op : α → α → α)
    (hassoc : ∀ a b c, op (op a b) c = op a (op b c))
    (hcomm : ∀ a b, op a b = op b a) :
    ∀ (acc : Option α) (x y : α),
      optOp op (optOp op acc x) y = optOp op (optOp op acc y) x := by
  intro acc x y
  cases acc with
  | none =>
    show some (op x y) = some (op y x)
    rw [hcomm]
  | some a =>
    show some (op (op a x) y) = some (op (op a y) x)
    rw [hassoc, hassoc, hcomm x y]

theorem foldl_optOp_some (op : α → α → α) :
    ∀ (xs : List α) (a : α), xs.foldl (optOp op) (some a) = some (xs.foldl op a) := by
  intro xs
  induction xs with
  | nil => intro a; rfl
  | cons x xs ih =>
    intro a
    show xs.foldl (optOp op) (some (op a x)) = _
    rw [ih, List.foldl_cons]

theorem reduceSeg_perm (op : α → α → α) (d : α)
    (hassoc : ∀ a b c, op (op a b) c = op a (op b c))
    (hcomm : ∀ a b, op a b = op b a)
    {l₁ l₂ : List α} (hne : l₁ ≠ []) (h : l₁.Perm l₂) :
    reduceSeg op d l₁ = reduceSeg op d l₂ := by
  cases l₁ with
  | nil => exact absurd rfl hne
  | cons x xs =>
    cases l₂ with
    | nil =>
      have := h.length_eq
      simp at this
    | cons y ys =>
      have h1 : (x :: xs).foldl (optOp op) none = (y :: ys).foldl (optOp op) none :=
        h.foldl_eq' (fun a _ b _ z => optOp_rcomm op hassoc hcomm z a b) none
      show xs.foldl op x = ys.foldl op y
      have h2 : some (xs.foldl op x) = some (ys.foldl op y) := by
        rw [← foldl_optOp_some, ← foldl_optOp_some]
        exact h1
      exact Option.some_inj.mp h2

theorem np_grouped_op_sorted_congr {α : Type} (segOp : List α → α)
    (hseg : ∀ l₁ l₂ : List α, l₁ ≠ [] → l₁.Perm l₂ → segOp l₁ = segOp l₂)
    (codes : List Int) (data data' : List α) (size? : Option Nat) (fill : α)
    (hlen : codes.length = data.length) (hlen' : codes.length = data'.length)
    (hs : codes.Pairwise (· ≤ ·))
    (hperm : (codes.zip data).Perm (codes.zip data')) :
    np_grouped_op segOp codes data size? fill =
      np_grouped_op segOp codes data' size? fill := by
  have hres : (segmentsOf (invIdxOf codes) data.length data).map segOp =
      (segmentsOf (invIdxOf codes) data'.length data').map segOp := by
    rw [segments_eq_groupVals codes data hlen hs,
      segments_eq_groupVals codes data' hlen' hs, List.map_map, List.map_map]
    apply List.map_congr_left
    intro u hu
    show segOp (((codes.zip data).filter (fun q => q.1 == u)).map Prod.snd) =
      segOp (((codes.zip data').filter (fun q => q.1 == u)).map Prod.snd)
    apply hseg
    · exact groupVals_ne_nil codes data u hlen ((mem_uniquesOf_iff codes u).mp hu)
    · exact (hperm.filter _).map _
  simp only [np_grouped_op]
  rw [hres]

theorem zip_perm_fst_eq (codes codes' : List Int) (data data' : List α)
    (hlen : codes.length = data.length) (hlen' : codes'.length = data'.length)
    (hperm : (codes.zip data).Perm (codes'.zip data')) :
    codes.Perm codes' := by
  have h := hperm.map Prod.fst
  rw [List.map_fst_zip codes data (le_of_eq hlen),
    List.map_fst_zip codes' data' (le_of_eq hlen')] at h
  exact h

theorem prepare_fst_eq (codes codes' : List Int) (data data' : List α)
    (hlen : codes.length = data.length) (hlen' : codes'.length = data'.length)
    (hperm : (codes.zip data).Perm (codes'.zip data')) :
    (prepare_for_flox codes data).1 = (prepare_for_flox codes' data').1 := by
  obtain ⟨hs1, hc1, hd1, hz1⟩ := prepare_spec codes data hlen
  obtain ⟨hs2, hc2, hd2, hz2⟩ := prepare_spec codes' data' hlen'
  have hp : (prepare_for_flox codes data).1.Perm (prepare_for_flox codes' data').1 := by
    apply zip_perm_fst_eq _ _ (prepare_for_flox codes data).2.1
      (prepare_for_flox codes' data').2.1 (by rw [hc1, hd1, hlen])
      (by rw [hc2, hd2, hlen'])
    exact hz1.trans (hperm.trans hz2.symm)
  exact List.eq_of_perm_of_sorted hp hs1 hs2

theorem withPrepare_np_congr {α : Type} (segOp : List α → α)
    (hseg : ∀ l₁ l₂ : List α, l₁ ≠ [] → l₁.Perm l₂ → segOp l₁ = segOp l₂)
    (codes codes' : List Int) (data data' : List α) (size? : Option Nat) (fill : α)
    (hlen : codes.length = data.length) (hlen' : codes'.length = data'.length)
    (hperm : (codes.zip data).Perm (codes'.zip data')) :
    withPrepare (np_grouped_op segOp) codes data size? fill =
      withPrepare (np_grouped_op segOp) codes' data' size? fill := by
  obtain ⟨hs1, hc1, hd1, hz1⟩ := prepare_spec codes data hlen
  obtain ⟨hs2, hc2, hd2, hz2⟩ := prepare_spec codes' data' hlen'
  have hfst := prepare_fst_eq codes codes' data data' hlen hlen' hperm
  show np_grouped_op segOp (prepare_for_flox codes data).1
      (prepare_for_flox codes data).2.1 size? fill =
    np_grouped_op segOp (prepare_for_flox codes' data').1
      (prepare_for_flox codes' data').2.1 size? fill
  have hcc : codes.length = codes'.length := by
    have h := hperm.length_eq
    rw [List.length_zip, List.length_zip, ← hlen, ← hlen', min_self, min_self] at h
    exact h
  rw [← hfst] at hz2 ⊢
  exact np_grouped_op_sorted_congr segOp hseg _ _ _ size? fill
    (by rw [hc1, hd1, hlen]) (by rw [hc1, hd2, ← hlen']; exact hcc)
    hs1 (hz1.trans (hperm.trans hz2.symm))

theorem truePositions_lt : ∀ (bs : List Bool), ∀ p ∈ truePositions bs, p < bs.length := by
  intro bs
  induction bs with
  | nil => intro p hp; cases hp
  | cons b bs ih =>
    intro p hp
    have hsub : ∀ q ∈ (truePositions bs).map (· + 1), q < (b :: bs).length := by
      intro q hq
      obtain ⟨r, hr, rfl⟩ := List.mem_map.mp hq
      have := ih r hr
      simp only [List.length_cons]
      omega
    cases b with
    | true =>
      have hp2 : p ∈ 0 :: (truePositions bs).map (· + 1) := hp
      rcases List.mem_cons.mp hp2 with rfl | hp'
      · simp
      · exact hsub p hp'
    | false =>
      have hp2 : p ∈ (truePositions bs).map (· + 1) := hp
      exact hsub p hp2

theorem truePositions_pairwise : ∀ (bs : List Bool), (truePositions bs).Pairwise (· < ·) := by
  intro bs
  induction bs with
  | nil => exact List.Pairwise.nil
  | cons b bs ih =>
    have hmap : ((truePositions bs).map (· + 1)).Pairwise (· < ·) :=
      List.Pairwise.map _ (fun a b h => by omega) ih
    cases b with
    | true =>
      show (if true then 0 :: (truePositions bs).map (· + 1)
        else (truePositions bs).map (· + 1)).Pairwise (· < ·)
      rw [if_pos rfl]
      refine List.pairwise_cons.mpr ⟨?_, hmap⟩
      intro q hq
      obtain ⟨r, _, rfl⟩ := List.mem_map.mp hq
      omega
    | false =>
      show (if false then 0 :: (truePositions bs).map (· + 1)
        else (truePositions bs).map (· + 1)).Pairwise (· < ·)
      rw [if_neg (by simp)]
      exact hmap

theorem invIdxOf_lt (codes : List Int) : ∀ p ∈ invIdxOf codes, p < codes.length := by
  intro p hp
  have := truePositions_lt (flagOf codes) p hp
  rwa [flagOf_length] at this

theorem invIdxOf_pairwise (codes : List Int) : (invIdxOf codes).Pairwise (· < ·) :=
  truePositions_pairwise (flagOf codes)

theorem consec_pairs : ∀ (inv : List Nat) (n : Nat), (∀ p ∈ inv, p < n) →
    inv.Pairwise (· < ·) →
    ∀ se ∈ inv.zip (inv.tail ++ [n]), se.1 < se.2 ∧ se.2 ≤ n := by
  intro inv
  induction inv with
  | nil => intro n _ _ se hse; cases hse
  | cons x xs ih =>
    intro n hlt hpw se hse
    cases xs with
    | nil =>
      simp only [List.tail_cons, List.nil_append, List.zip_cons_cons,
        List.zip_nil_left] at hse
      rcases List.mem_cons.mp hse with rfl | h
      · exact ⟨hlt x (List.mem_cons_self _ _), le_refl n⟩
      · cases h
    | cons y ys =>
      simp only [List.tail_cons, List.cons_append, List.zip_cons_cons] at hse
      rcases List.mem_cons.mp hse with rfl | h
      · constructor
        · exact (List.pairwise_cons.mp hpw).1 y (List.mem_cons_self _ _)
        · exact le_of_lt (hlt y (List.mem_cons_of_mem _ (List.mem_cons_self _ _)))
      · have h' : se ∈ (y :: ys).zip ((y :: ys).tail ++ [n]) := by
          simpa using h
        exact ih n (fun p hp => hlt p (List.mem_cons_of_mem _ hp))
          (List.pairwise_cons.mp hpw).2 se h'

theorem zipWith_eq_map_zip (f : α → β → γ) : ∀ (l : List α) (l' : List β),
    List.zipWith f l l' = (l.zip l').map fun p => f p.1 p.2 := by
  intro l
  induction l with
  | nil => intro l'; rfl
  | cons x xs ih =>
    intro l'
    cases l' with
    | nil => rfl
    | cons y ys =>
      simp only [List.zipWith_cons_cons, List.zip_cons_cons, List.map_cons, ih]

theorem zip_append_extra (x : α) : ∀ (l₁ : List α) (l₂ : List β),
    l₂.length = l₁.length → (l₁ ++ [x]).zip l₂ = l₁.zip l₂ := by
  intro l₁
  induction l₁ with
  | nil =>
    intro l₂ h
    cases l₂ with
    | nil => rfl
    | cons b bs => simp at h
  | cons a as ih =>
    intro l₂ h
    cases l₂ with
    | nil => simp at h
    | cons b bs =>
      simp only [List.cons_append, List.zip_cons_cons]
      rw [ih bs (by simpa using h)]

theorem segLens_eq_map (inv : List Nat) (n : Nat) :
    segLens inv n = (inv.zip (inv.tail ++ [n])).map fun se => se.2 - se.1 := by
  cases inv with
  | nil => rfl
  | cons x xs =>
    show List.zipWith (fun s e => e - s) ((x :: xs) ++ [n])
      (((x :: xs) ++ [n]).tail) = _
    rw [show ((x :: xs) ++ [n]).tail = xs ++ [n] from rfl, zipWith_eq_map_zip,
      zip_append_extra n (x :: xs) (xs ++ [n]) (by simp)]
    simp only [List.tail_cons]

theorem segmentsOf_map_length (inv : List Nat) (d : List α)
    (h : ∀ se ∈ inv.zip (inv.tail ++ [d.length]), se.1 < se.2 ∧ se.2 ≤ d.length) :
    (segmentsOf inv d.length d).map List.length = segLens inv d.length := by
  rw [segLens_eq_map]
  unfold segmentsOf
  rw [List.map_map]
  apply List.map_congr_left
  intro se hse
  obtain ⟨h1, h2⟩ := h se hse
  show ((d.take se.2).drop se.1).length = se.2 - se.1
  rw [List.length_drop, List.length_take]
  omega

theorem invIdx_bounds (codes : List Int) (d : List α) (hlen : codes.length = d.length) :
    ∀ se ∈ (invIdxOf codes).zip ((invIdxOf codes).tail ++ [d.length]),
      se.1 < se.2 ∧ se.2 ≤ d.length :=
  consec_pairs (invIdxOf codes) d.length
    (fun p hp => hlen ▸ invIdxOf_lt codes p hp) (invIdxOf_pairwise codes)

theorem segmentsOf_map (g : α → β) (inv : List Nat) (stop : Nat) (d : List α) :
    segmentsOf inv stop (d.map g) = (segmentsOf inv stop d).map (List.map g) := by
  unfold segmentsOf
  rw [List.map_map]
  apply List.map_congr_left
  intro se _
  show ((d.map g).take se.2).drop se.1 = List.map g ((d.take se.2).drop se.1)
  simp [List.map_take, List.map_drop]

theorem zip_flatten_flatten {L : List (List α)} {M : List (List β)}
    (h : List.Forall₂ (fun x y => x.length = y.length) L M) :
    L.flatten.zip M.flatten = (List.zipWith List.zip L M).flatten := by
  induction h with
  | nil => rfl
  | cons hxy hrest ih =>
    simp only [List.flatten_cons, List.zipWith_cons_cons]
    rw [List.zip_append hxy, ih]

theorem zipWith_flatten_flatten (f : α → β → γ) {L : List (List α)} {M : List (List β)}
    (h : List.Forall₂ (fun x y => x.length = y.length) L M) :
    List.zipWith f L.flatten M.flatten = (List.zipWith (List.zipWith f) L M).flatten := by
  induction h with
  | cons hxy hrest ih =>
    simp only [List.flatten_cons, List.zipWith_cons_cons]
    rw [List.zipWith_append f _ _ _ _ hxy, ih]
  | nil => rfl

theorem forall₂_of_map_length_eq : ∀ (L : List (List α)) (M : List (List β)),
    L.map List.length = M.map List.length →
    List.Forall₂ (fun x y => x.length = y.length) L M := by
  intro L
  induction L with
  | nil =>
    intro M h
    cases M with
    | nil => constructor
    | cons _ _ => simp at h
  | cons x xs ih =>
    intro M h
    cases M with
    | nil => simp at h
    | cons y ys =>
      rw [List.map_cons, List.map_cons] at h
      injection h with h1 h2
      exact List.Forall₂.cons h1 (ih ys h2)

theorem forall₂_map_same (P : β → γ → Prop) (g : α → β) (h : α → γ) :
    ∀ (l : List α), (∀ x ∈ l, P (g x) (h x)) → List.Forall₂ P (l.map g) (l.map h) := by
  intro l
  induction l with
  | nil => intro _; constructor
  | cons x xs ih =>
    intro hp
    exact List.Forall₂.cons (hp x (List.mem_cons_self _ _))
      (ih fun y hy => hp y (List.mem_cons_of_mem _ hy))

theorem zip_replicate_left (u : α) : ∀ (l : List β),
    (List.replicate l.length u).zip l = l.map (Prod.mk u) := by
  intro l
  induction l with
  | nil => rfl
  | cons x xs ih =>
    rw [show (x :: xs).length = xs.length + 1 from rfl, List.replicate_succ,
      List.zip_cons_cons, ih, List.map_cons]

theorem zipWith_replicate_right (f : α → β → γ) (M : β) : ∀ (l : List α),
    List.zipWith f l (List.replicate l.length M) = l.map (fun x => f x M) := by
  intro l
  induction l with
  | nil => rfl
  | cons x xs ih =>
    rw [show (x :: xs).length = xs.length + 1 from rfl, List.replicate_succ,
      List.zipWith_cons_cons, ih, List.map_cons]

theorem mem_zip_self : ∀ (l : List α) (p : α × α), p ∈ l.zip l → p.1 = p.2 := by
  intro l
  induction l with
  | nil => intro p hp; cases hp
  | cons x xs ih =>
    intro p hp
    rw [List.zip_cons_cons] at hp
    rcases List.mem_cons.mp hp with rfl | hp
    · rfl
    · exact ih p hp

theorem countP_zip_fst (p : Int → Bool) : ∀ (c : List Int) (d : List α),
    c.length = d.length →
    (c.zip d).countP (fun q => p q.1) = c.countP p := by
  intro c
  induction c with
  | nil => intro d _; rfl
  | cons x xs ih =>
    intro d hd
    cases d with
    | nil => simp at hd
    | cons y ys =>
      rw [List.zip_cons_cons]
      simp only [List.countP_cons]
      rw [ih ys (by simpa using hd)]

theorem reduceSeg_max_bot (l : List QB) : reduceSeg Max.max ⊥ l = l.foldl Max.max ⊥ := by
  cases l with
  | nil => rfl
  | cons x xs =>
    show xs.foldl Max.max x = (x :: xs).foldl Max.max ⊥
    rw [List.foldl_cons, max_eq_right bot_le]

theorem reduceSeg_max_bot_perm {l₁ l₂ : List QB} (h : l₁.Perm l₂) :
    reduceSeg Max.max ⊥ l₁ = reduceSeg Max.max ⊥ l₂ := by
  rw [reduceSeg_max_bot, reduceSeg_max_bot]
  refine h.foldl_eq' (fun x _ y _ z => ?_) ⊥
  rw [max_assoc, max_assoc, max_comm x y]

theorem zip_const_perm (u : Int) (m : Nat) (v v' : List QB)
    (hv : v.length = m) (hv' : v'.length = m) (hp : v.Perm v') :
    ((List.replicate m u).zip v).Perm ((List.replicate m u).zip v') := by
  subst hv
  rw [zip_replicate_left]
  rw [show List.replicate v.length u = List.replicate v'.length u from by rw [hv']]
  rw [zip_replicate_left]
  exact hp.map _

theorem replacedArray_flatten (c : List Int) (a : List (Option ℚ))
    (hlen : c.length = a.length) :
    replacedArray a (invIdxOf c) =
      ((segmentsOf (invIdxOf c) a.length a).map fun b =>
        b.map fun o =>
          match o with
          | none => reduceSeg Max.max ⊥ (b.map fun o' =>
              match o' with
              | none => (⊥ : QB)
              | some x => (x : QB))
          | some x => (x : QB)).flatten := by
  have hlensB : (segmentsOf (invIdxOf c) a.length a).map List.length =
      segLens (invIdxOf c) a.length :=
    segmentsOf_map_length (invIdxOf c) a (invIdx_bounds c a hlen)
  have hflat : (segmentsOf (invIdxOf c) a.length a).flatten = a := by
    rw [segmentsOf_eq_runs_snd c a hlen]
    exact runs_snd_flatten c a hlen
  simp only [replacedArray]
  rw [segmentsOf_map]
  set B := segmentsOf (invIdxOf c) a.length a with hB
  have hlensB' : B.map List.length = segLens (invIdxOf c) a.length := by
    rw [hB]
    exact hlensB
  have hflat' : B.flatten = a := by
    rw [hB]
    exact hflat
  rw [List.map_map, ← hlensB', List.zip_map', List.map_map]
  simp only [Function.comp_def]
  rw [← hflat']
  have hf2 : List.Forall₂ (fun x y => x.length = y.length) B
      (B.map fun b => List.replicate b.length
        (reduceSeg Max.max ⊥ (b.map fun o =>
          match o with
          | none => (⊥ : QB)
          | some x => (x : QB)))) := by
    apply forall₂_of_map_length_eq
    rw [List.map_map]
    apply List.map_congr_left
    intro b _
    show b.length = (List.replicate b.length _).length
    rw [List.length_replicate]
  rw [zipWith_flatten_flatten _ hf2]
  congr 1
  rw [List.zipWith_map_right, List.zipWith_same]
  apply List.map_congr_left
  intro b _
  show List.zipWith (fun o r =>
      match o with
      | none => r
      | some x => (x : QB)) b (List.replicate b.length _) = _
  rw [zipWith_replicate_right]

theorem zipWith_map_same (k : β → γ → δ) (f : α → β) (h : α → γ) :
    ∀ l : List α, List.zipWith k (l.map f) (l.map h) = l.map fun x => k (f x) (h x) := by
  intro l
  induction l with
  | nil => rfl
  | cons x xs ih => simp only [List.map_cons, List.zipWith_cons_cons, ih]

theorem zip_flatten_of_eq (x : List α) (L : List (List α)) (M : List (List β))
    (hx : L.flatten = x)
    (h : List.Forall₂ (fun p q => p.length = q.length) L M) :
    x.zip M.flatten = (List.zipWith List.zip L M).flatten := by
  subst hx
  exact zip_flatten_flatten h

theorem groupVals_length_countP (c : List Int) (d : List α) (u : Int)
    (hlen : c.length = d.length) :
    (((c.zip d).filter (fun q => q.1 == u)).map Prod.snd).length =
      c.countP (· == u) := by
  rw [List.length_map, ← List.countP_eq_length_filter]
  exact countP_zip_fst (· == u) c d hlen

theorem groupVals_self_const (c : List Int) (u : Int) :
    ∀ x ∈ ((c.zip c).filter (fun q => q.1 == u)).map Prod.snd, x = u := by
  intro x hx
  obtain ⟨q, hq, rfl⟩ := List.mem_map.mp hx
  have hqf := List.of_mem_filter hq
  have hqm := List.mem_of_mem_filter hq
  have h1 : q.1 = u := by simpa using hqf
  rw [← mem_zip_self c q hqm, h1]

theorem replaced_zip_perm (c : List Int) (a a' : List (Option ℚ))
    (hlen : c.length = a.length) (hlen' : c.length = a'.length)
    (hs : c.Pairwise (· ≤ ·))
    (hperm : (c.zip a).Perm (c.zip a')) :
    (c.zip (replacedArray a (invIdxOf c))).Perm
      (c.zip (replacedArray a' (invIdxOf c))) := by
  have hcflat : (segmentsOf (invIdxOf c) c.length c).flatten = c := by
    rw [segmentsOf_eq_runs_snd c c rfl]
    exact runs_snd_flatten c c rfl
  have hclens : (segmentsOf (invIdxOf c) c.length c).map List.length =
      segLens (invIdxOf c) c.length :=
    segmentsOf_map_length (invIdxOf c) c (invIdx_bounds c c rfl)
  have halens : (segmentsOf (invIdxOf c) a.length a).map List.length =
      segLens (invIdxOf c) a.length :=
    segmentsOf_map_length (invIdxOf c) a (invIdx_bounds c a hlen)
  have halens' : (segmentsOf (invIdxOf c) a'.length a').map List.length =
      segLens (invIdxOf c) a'.length :=
    segmentsOf_map_length (invIdxOf c) a' (invIdx_bounds c a' hlen')
  have hseglens : segLens (invIdxOf c) a.length = segLens (invIdxOf c) c.length := by
    rw [← hlen]
  have hseglens' : segLens (invIdxOf c) a'.length = segLens (invIdxOf c) c.length := by
    rw [← hlen']
  rw [replacedArray_flatten c a hlen, replacedArray_flatten c a' hlen']
  have hf2 : List.Forall₂ (fun p q => p.length = q.length)
      (segmentsOf (invIdxOf c) c.length c)
      ((segmentsOf (invIdxOf c) a.length a).map fun b =>
        b.map fun (o : Option ℚ) =>
          match o with
          | none => reduceSeg Max.max ⊥ (b.map fun (o' : Option ℚ) =>
              match o' with
              | none => (⊥ : QB)
              | some x => (x : QB))
          | some x => (x : QB)) := by
    apply forall₂_of_map_length_eq
    rw [List.map_map, hclens]
    simp only [Function.comp_def, List.length_map]
    rw [halens, hseglens]
  have hf2' : List.Forall₂ (fun p q => p.length = q.length)
      (segmentsOf (invIdxOf c) c.length c)
      ((segmentsOf (invIdxOf c) a'.length a').map fun b =>
        b.map fun (o : Option ℚ) =>
          match o with
          | none => reduceSeg Max.max ⊥ (b.map fun (o' : Option ℚ) =>
              match o' with
              | none => (⊥ : QB)
              | some x => (x : QB))
          | some x => (x : QB)) := by
    apply forall₂_of_map_length_eq
    rw [List.map_map, hclens]
    simp only [Function.comp_def, List.length_map]
    rw [halens', hseglens']
  rw [zip_flatten_of_eq c _ _ hcflat hf2, zip_flatten_of_eq c _ _ hcflat hf2']
  apply List.Perm.flatten_congr
  rw [segments_eq_groupVals c c rfl hs, segments_eq_groupVals c a hlen hs,
    segments_eq_groupVals c a' hlen' hs]
  rw [List.map_map, List.map_map, zipWith_map_same, zipWith_map_same]
  apply forall₂_map_same
  intro u hu
  simp only [Function.comp_def]
  have hFp : ((((c.zip a).filter (fun q => q.1 == u)).map Prod.snd)).Perm
      (((c.zip a').filter (fun q => q.1 == u)).map Prod.snd) :=
    (hperm.filter _).map _
  have hmax : reduceSeg Max.max ⊥
      ((((c.zip a).filter (fun q => q.1 == u)).map Prod.snd).map
        fun (o' : Option ℚ) =>
          match o' with
          | none => (⊥ : QB)
          | some x => (x : QB)) =
      reduceSeg Max.max ⊥
      ((((c.zip a').filter (fun q => q.1 == u)).map Prod.snd).map
        fun (o' : Option ℚ) =>
          match o' with
          | none => (⊥ : QB)
          | some x => (x : QB)) :=
    reduceSeg_max_bot_perm (hFp.map _)
  have hrepl : ((c.zip c).filter (fun q => q.1 == u)).map Prod.snd =
      List.replicate ((((c.zip c).filter (fun q => q.1 == u)).map Prod.snd).length) u :=
    List.eq_replicate_of_mem (groupVals_self_const c u)
  have hlen1 : ((((c.zip a).filter (fun (q : Int × Option ℚ) => q.1 == u)).map Prod.snd).map
      fun (o : Option ℚ) =>
        match o with
        | none => reduceSeg Max.max ⊥
            ((((c.zip a).filter (fun (q : Int × Option ℚ) => q.1 == u)).map Prod.snd).map
              fun (o' : Option ℚ) =>
                match o' with
                | none => (⊥ : QB)
                | some x => (x : QB))
        | some x => (x : QB)).length =
      (((c.zip c).filter (fun (q : Int × Int) => q.1 == u)).map Prod.snd).length := by
    rw [List.length_map, groupVals_length_countP c a u hlen,
      groupVals_length_countP c c u rfl]
  have hlen2 : ((((c.zip a').filter (fun (q : Int × Option ℚ) => q.1 == u)).map Prod.snd).map
      fun (o : Option ℚ) =>
        match o with
        | none => reduceSeg Max.max ⊥
            ((((c.zip a).filter (fun (q : Int × Option ℚ) => q.1 == u)).map Prod.snd).map
              fun (o' : Option ℚ) =>
                match o' with
                | none => (⊥ : QB)
                | some x => (x : QB))
        | some x => (x : QB)).length =
      (((c.zip c).filter (fun (q : Int × Int) => q.1 == u)).map Prod.snd).length := by
    rw [List.length_map, groupVals_length_countP c a' u hlen',
      groupVals_length_countP c c u rfl]
  rw [hrepl]
  rw [← hmax]
  apply zip_const_perm u _ _ _ hlen1 hlen2
  exact hFp.map _

theorem sortedVals_congr (c : List Int) (r r' : List QB)
    (hperm : (c.zip r).Perm (c.zip r')) :
    sortedVals c r = sortedVals c r' := by
  unfold sortedVals
  congr 1
  refine List.eq_of_perm_of_sorted ?_
    (List.sorted_insertionSort pairRel (c.zip r))
    (List.sorted_insertionSort pairRel (c.zip r'))
  exact (List.perm_insertionSort pairRel (c.zip r)).trans
    (hperm.trans (List.perm_insertionSort pairRel (c.zip r')).symm)

theorem quantile_rows_congr (c : List Int) (a a' : List (Option ℚ)) (qv : ℚ)
    (fill : QB)
    (hlen : c.length = a.length) (hlen' : c.length = a'.length)
    (hs : c.Pairwise (· ≤ ·)) (hperm : (c.zip a).Perm (c.zip a')) :
    quantile_or_topk a (invIdxOf c) (some qv) none false c fill =
      quantile_or_topk a' (invIdxOf c) (some qv) none false c fill := by
  have hlen2 : a'.length = a.length := by omega
  have hsz : (segmentsOf (invIdxOf c) a.length a).map countSome =
      (segmentsOf (invIdxOf c) a'.length a').map countSome := by
    rw [segments_eq_groupVals c a hlen hs, segments_eq_groupVals c a' hlen' hs,
      List.map_map, List.map_map]
    apply List.map_congr_left
    intro u _
    show countSome (((c.zip a).filter (fun q => q.1 == u)).map Prod.snd) =
      countSome (((c.zip a').filter (fun q => q.1 == u)).map Prod.snd)
    unfold countSome
    exact List.Perm.countP_eq _ ((hperm.filter _).map _)
  have hsz2 : (segmentsOf (invIdxOf c) a.length a').map countSome =
      (segmentsOf (invIdxOf c) a.length a).map countSome := by
    rw [show segmentsOf (invIdxOf c) a.length a' =
      segmentsOf (invIdxOf c) a'.length a' from by rw [hlen2]]
    exact hsz.symm
  have hnm : nanmaskOf a' (invIdxOf c) = nanmaskOf a (invIdxOf c) := by
    unfold nanmaskOf
    rw [hlen2, hsz2]
  have hsv : sortedVals c (replacedArray a' (invIdxOf c)) =
      sortedVals c (replacedArray a (invIdxOf c)) :=
    sortedVals_congr c _ _ (replaced_zip_perm c a' a hlen' hlen hs hperm.symm)
  simp only [quantile_or_topk]
  rw [← hsz, hnm, hsv]

theorem quantileReduce_perm (codes codes' : List Int) (data data' : List (Option ℚ))
    (qv : ℚ) (size? : Option Nat) (fill : QB)
    (hlen : codes.length = data.length) (hlen' : codes'.length = data'.length)
    (hperm : (codes.zip data).Perm (codes'.zip data')) :
    quantileReduce codes data qv size? fill =
      quantileReduce codes' data' qv size? fill := by
  obtain ⟨hs1, hc1, hd1, hz1⟩ := prepare_spec codes data hlen
  obtain ⟨hs2, hc2, hd2, hz2⟩ := prepare_spec codes' data' hlen'
  have hfst := prepare_fst_eq codes codes' data data' hlen hlen' hperm
  have hcc : codes.length = codes'.length := by
    have h := hperm.length_eq
    rw [List.length_zip, List.length_zip, ← hlen, ← hlen', min_self, min_self] at h
    exact h
  rw [← hfst] at hz2
  have hzz := hz1.trans (hperm.trans hz2.symm)
  have hrows := quantile_rows_congr (prepare_for_flox codes data).1
    (prepare_for_flox codes data).2.1 (prepare_for_flox codes' data').2.1 qv fill
    (by rw [hc1, hd1, hlen]) (by rw [hc1, hd2, ← hlen']; exact hcc) hs1 hzz
  simp only [quantileReduce, np_grouped_op_rows]
  rw [← hfst, hrows]

theorem zip_map_perm (c : List Int) (d d' : List α) (f : α → β)
    (h : (c.zip d).Perm (c.zip d')) :
    (c.zip (d.map f)).Perm (c.zip (d'.map f)) := by
  rw [List.zip_map_right, List.zip_map_right]
  exact h.map _

/-- C7: sort invariance of the order-insensitive reductions (sum, mean, min,
max, count, quantile): applying a permutation identically to the group codes
and the data leaves each reduction's result unchanged; the kernels achieve
this by stably sorting codes and data (`_prepare_for_flox`, lines 9-23)
before the grouped operation, and the per-group multisets of values are
permutation invariants. -/
theorem sort_invariance
    (codes codes' : List Int) (data data' : List ℚ)
    (dataO dataO' : List (Option ℚ)) (size? : Option Nat) (fill junk : ℚ)
    (fill? : Option ℚ) (qv : ℚ) (fillQ : QB)
    (hlen : codes.length = data.length) (hlen' : codes'.length = data'.length)
    (hlenO : codes.length = dataO.length) (hlenO' : codes'.length = dataO'.length)
    (hperm : (codes.zip data).Perm (codes'.zip data'))
    (hpermO : (codes.zip dataO).Perm (codes'.zip dataO')) :
    sumReduce codes data size? fill = sumReduce codes' data' size? fill ∧
    meanReduce codes data size? fill? = meanReduce codes' data' size? fill? ∧
    minReduce junk codes data size? fill = minReduce junk codes' data' size? fill ∧
    maxReduce junk codes data size? fill = maxReduce junk codes' data' size? fill ∧
    countReduce codes dataO size? fill = countReduce codes' dataO' size? fill ∧
    quantileReduce codes dataO qv size? fillQ =
      quantileReduce codes' dataO' qv size? fillQ := by
  have hsegSum : ∀ l₁ l₂ : List ℚ, l₁ ≠ [] → l₁.Perm l₂ → segSum l₁ = segSum l₂ := by
    intro l₁ l₂ _ h
    rw [segSum_eq_sum, segSum_eq_sum]
    exact h.sum_eq
  have hsegMin : ∀ l₁ l₂ : List ℚ, l₁ ≠ [] → l₁.Perm l₂ →
      reduceSeg Min.min junk l₁ = reduceSeg Min.min junk l₂ := fun l₁ l₂ hne h =>
    reduceSeg_perm Min.min junk (fun a b c => min_assoc a b c)
      (fun a b => min_comm a b) hne h
  have hsegMax : ∀ l₁ l₂ : List ℚ, l₁ ≠ [] → l₁.Perm l₂ →
      reduceSeg Max.max junk l₁ = reduceSeg Max.max junk l₂ := fun l₁ l₂ hne h =>
    reduceSeg_perm Max.max junk (fun a b c => max_assoc a b c)
      (fun a b => max_comm a b) hne h
  obtain ⟨hs1, hc1, hd1, hz1⟩ := prepare_spec codes data hlen
  obtain ⟨hs2, hc2, hd2, hz2⟩ := prepare_spec codes' data' hlen'
  obtain ⟨hsO1, hcO1, hdO1, hzO1⟩ := prepare_spec codes dataO hlenO
  obtain ⟨hsO2, hcO2, hdO2, hzO2⟩ := prepare_spec codes' dataO' hlenO'
  have hfst := prepare_fst_eq codes codes' data data' hlen hlen' hperm
  have hfstO := prepare_fst_eq codes codes' dataO dataO' hlenO hlenO' hpermO
  have hcc : codes.length = codes'.length := by
    have h := hperm.length_eq
    rw [List.length_zip, List.length_zip, ← hlen, ← hlen', min_self, min_self] at h
    exact h
  rw [← hfst] at hz2
  rw [← hfstO] at hzO2
  have hzz := hz1.trans (hperm.trans hz2.symm)
  have hzzO := hzO1.trans (hpermO.trans hzO2.symm)
  refine ⟨?_, ?_, ?_, ?_, ?_, ?_⟩
  · exact withPrepare_np_congr segSum hsegSum codes codes' data data' size? fill
      hlen hlen' hperm
  · have hsum : sum (prepare_for_flox codes data).1 (prepare_for_flox codes data).2.1
        size? (fill?.getD 0) =
        sum (prepare_for_flox codes data).1 (prepare_for_flox codes' data').2.1
        size? (fill?.getD 0) :=
      np_grouped_op_sorted_congr segSum hsegSum _ _ _ size? _
        (by rw [hc1, hd1, hlen]) (by rw [hc1, hd2, ← hlen']; exact hcc) hs1 hzz
    have hcnt : nanlen (prepare_for_flox codes data).1
        ((prepare_for_flox codes data).2.1.map some) size? 0 =
        nanlen (prepare_for_flox codes data).1
        ((prepare_for_flox codes' data').2.1.map some) size? 0 :=
      np_grouped_op_sorted_congr segSum hsegSum _ _ _ size? _
        (by rw [List.length_map, List.length_map, hc1, hd1, hlen])
        (by rw [List.length_map, List.length_map, hc1, hd2, ← hlen']; exact hcc)
        hs1
        (zip_map_perm _ _ _ _ (zip_map_perm _ _ _ _ hzz))
    simp only [meanReduce, mean]
    rw [← hfst, hsum, hcnt]
  · exact withPrepare_np_congr (reduceSeg Min.min junk) hsegMin codes codes' data data'
      size? fill hlen hlen' hperm
  · exact withPrepare_np_congr (reduceSeg Max.max junk) hsegMax codes codes' data data'
      size? fill hlen hlen' hperm
  · have hccO : codes.length = codes'.length := hcc
    show nanlen (prepare_for_flox codes dataO).1 (prepare_for_flox codes dataO).2.1
        size? fill =
      nanlen (prepare_for_flox codes' dataO').1 (prepare_for_flox codes' dataO').2.1
        size? fill
    rw [← hfstO]
    exact np_grouped_op_sorted_congr segSum hsegSum _ _ _ size? _
      (by rw [List.length_map, hcO1, hdO1, hlenO])
      (by rw [List.length_map, hcO1, hdO2, ← hlenO']; exact hccO)
      hsO1 (zip_map_perm _ _ _ _ hzzO)
  · exact quantileReduce_perm codes codes' dataO dataO' qv size? fillQ
      hlenO hlenO' hpermO

/-- Witness for `sort_invariance`: both joint permutations concrete, reading
off the grouped-sum conjunct. -/
theorem sort_invariance_witness :
    ((([0, 1] : List Int).zip ([1, 2] : List ℚ)).Perm
      (([1, 0] : List Int).zip ([2, 1] : List ℚ))) ∧
    ((([0, 1] : List Int).zip ([some 1, none] : List (Option ℚ))).Perm
      (([1, 0] : List Int).zip ([none, some 1] : List (Option ℚ)))) ∧
    sumReduce [0, 1] [1, 2] (some 2) 0 = sumReduce [1, 0] [2, 1] (some 2) 0 :=
  ⟨by decide, by decide,
    (sort_invariance [0, 1] [1, 0] [1, 2] [2, 1] [some 1, none] [none, some 1]
      (some 2) 0 0 none (1 / 2) ⊥ (by decide) (by decide) (by decide) (by decide)
      (by decide) (by decide)).1⟩

end Flox
